import Mathlib

/-!
Verification of the mwm1c cache-system repository (LRU, LRU-K, LFU, ARC
policies plus sharded wrappers) against its natural-language specification.

The C++ sources are shallowly embedded: the intrusive doubly linked lists
coupled to hash indices are modelled as Lean lists (an entry list ordered by
recency for LRU, frequency buckets as an association list for LFU), machine
integers (`int`, `size_t`) as `Int`/`Nat` with explicit wrap-around where a
conversion between them occurs in the source, and out-parameters as explicit
result tuples.  Undefined behaviour that the source can reach (dereferencing
an `end()` iterator, dereferencing a null `unique_ptr`) is modelled with
`Option`, `none` marking the undefined case.
-/

/-- Conversion of a C++ `int` value to `size_t` (sign extension followed by
reduction modulo 2^64), as happens in mixed `int`/`size_t` comparisons such
as `nodeMap_.size() == capacity_`. -/
def usize (i : Int) : Nat :=
  (i % 18446744073709551616).toNat

/-- Conversion of a C++ `size_t` value back to a 32-bit `int`
(wrap-around), as happens when a `size_t` quotient is stored into an `int`
field such as `curAvgNum_`. -/
def intOfUsize (m : Nat) : Int :=
  ((m : Int) + 2147483648) % 4294967296 - 2147483648

/-- First-match lookup in an association list, mirroring
`std::unordered_map::find` (keys are unique in the C++ map, so the first
match is the only one). -/
def lookupEntry {K V : Type} [DecidableEq K] : List (K × V) → K → Option V
  | [], _ => none
  | (k, v) :: rest, key => if k = key then some v else lookupEntry rest key

/-- Removal of the first entry with the given key, mirroring
`std::unordered_map::erase`. -/
def eraseKey {K V : Type} [DecidableEq K] : List (K × V) → K → List (K × V)
  | [], _ => []
  | (k, v) :: rest, key => if k = key then rest else (k, v) :: eraseKey rest key

/-- Overwrite of the first entry with the given key, inserting at the back
when absent, mirroring `map[key] = value`. -/
def setEntry {K V : Type} [DecidableEq K] : List (K × V) → K → V → List (K × V)
  | [], key, v => [(key, v)]
  | (k, v0) :: rest, key, v =>
    if k = key then (key, v) :: rest else (k, v0) :: setEntry rest key v

/-- Removal of the first occurrence of an element from a list, mirroring the
unlink of a known node from an intrusive list. -/
def eraseElem {K : Type} [DecidableEq K] : List K → K → List K
  | [], _ => []
  | a :: rest, key => if a = key then rest else a :: eraseElem rest key

/-- The keys of an association list. -/
def keysOf {K V : Type} (l : List (K × V)) : List K :=
  l.map Prod.fst

section LruDefs

variable {K V : Type} [DecidableEq K]

/-- State of `LruCache` from `src/LRUCache.h`: the `int capacity_`, and the
doubly linked list shadowed by `nodeMap_`, modelled as an entry list whose
front is the least recently used node (`dummyHead_->next_`) and whose back
is the most recently used node (`insertNode` links new nodes just before
`dummyTail_`). -/
structure LruCache (K V : Type) where
  capacity : Int
  entries : List (K × V)

/-- The `LruCache(int cap)` constructor: empty list, given capacity. -/
def LruCache.init (cap : Int) : LruCache K V :=
  ⟨cap, []⟩

/-- The by-reference overload `bool get(Key, Value&)`: on a hit the node is
moved to the most-recent end (`moveToMostRecent` = unlink + relink at the
back) and its value is written to the out-parameter; on a miss the state and
the out-parameter are untouched.  Result: (value written if hit, new state). -/
def LruCache.getB (s : LruCache K V) (key : K) : Option V × LruCache K V :=
  match lookupEntry s.entries key with
  | some v => (some v, ⟨s.capacity, eraseKey s.entries key ++ [(key, v)]⟩)
  | none => (none, s)

/-- The by-value overload `Value get(Key)`: value-initializes a `Value`,
calls the by-reference `get`, and returns the (possibly still default)
value. -/
def LruCache.getV [Inhabited V] (s : LruCache K V) (key : K) : V × LruCache K V :=
  match s.getB key with
  | (some v, s1) => (v, s1)
  | (none, s1) => (default, s1)

/-- `void put(Key, Value)`: returns immediately when `capacity_ <= 0`;
overwrites and moves to the most-recent end when the key is present
(`updateExistingNode`); otherwise `addNewNode`, which first evicts the
least-recent node (the front) when `nodeMap_.size() >= capacity_` (a
`size_t`/`int` comparison) and then links the new node at the back. -/
def LruCache.put (s : LruCache K V) (key : K) (v : V) : LruCache K V :=
  if s.capacity ≤ 0 then s
  else
    match lookupEntry s.entries key with
    | some _ => ⟨s.capacity, eraseKey s.entries key ++ [(key, v)]⟩
    | none =>
      let pruned := if s.entries.length ≥ usize s.capacity then s.entries.drop 1 else s.entries
      ⟨s.capacity, pruned ++ [(key, v)]⟩

/-- `void remove(Key)`: unlink and drop the node when present. -/
def LruCache.remove (s : LruCache K V) (key : K) : LruCache K V :=
  ⟨s.capacity, eraseKey s.entries key⟩

end LruDefs

section LruKDefs

variable {K V : Type} [DecidableEq K] [Inhabited V]

/-- State of `LruKCache` from `src/LRUCache.h`: the inherited main
`LruCache`, the history counter cache `historyList_` (an `LruCache<Key,
size_t>`), the pending-value map `historyValueMap_`, and the promotion
threshold `k_` (an `int`). -/
structure LruKCache (K V : Type) where
  main : LruCache K V
  historyList : LruCache K Nat
  historyValueMap : List (K × V)
  k : Int

/-- The `LruKCache(int cap, int historyCap, int k)` constructor. -/
def LruKCache.init (cap historyCap k : Int) : LruKCache K V :=
  ⟨LruCache.init cap, LruCache.init historyCap, [], k⟩

/-- `Value LruKCache::get(Key)`: tries the main cache, then increments and
stores the history count, then — when the key was not in the main cache but
the new count reaches `k_` (a `size_t`/`int` comparison) and a pending value
exists — promotes the pending value into the main cache and returns it;
otherwise returns the main-cache value or the default. -/
def LruKCache.get (s : LruKCache K V) (key : K) : V × LruKCache K V :=
  let m := s.main.getB key
  let h := LruCache.getV s.historyList key
  let historyCount := h.1 + 1
  let hist2 := h.2.put key historyCount
  match m.1 with
  | some v => (v, ⟨m.2, hist2, s.historyValueMap, s.k⟩)
  | none =>
    if historyCount ≥ usize s.k then
      match lookupEntry s.historyValueMap key with
      | some storedValue =>
        (storedValue,
          ⟨(m.2).put key storedValue, hist2.remove key,
            eraseKey s.historyValueMap key, s.k⟩)
      | none => (default, ⟨m.2, hist2, s.historyValueMap, s.k⟩)
    else (default, ⟨m.2, hist2, s.historyValueMap, s.k⟩)

/-- `void LruKCache::put(Key, Value)`: probes the main cache (which also
refreshes recency); on a main-cache hit simply overwrites there.  Otherwise
it increments and stores the history count, records the pending value, and —
when the new count reaches `k_` — erases the history and pending entries and
promotes the value into the main cache. -/
def LruKCache.put (s : LruKCache K V) (key : K) (v : V) : LruKCache K V :=
  let m := s.main.getB key
  match m.1 with
  | some _ => ⟨(m.2).put key v, s.historyList, s.historyValueMap, s.k⟩
  | none =>
    let h := LruCache.getV s.historyList key
    let historyCount := h.1 + 1
    let hist2 := h.2.put key historyCount
    let hvm1 := setEntry s.historyValueMap key v
    if historyCount ≥ usize s.k then
      ⟨(m.2).put key v, hist2.remove key, eraseKey hvm1 key, s.k⟩
    else ⟨m.2, hist2, hvm1, s.k⟩

end LruKDefs

section HashLruDefs

variable (K V : Type)

/-- The shard vector built by the `HashLruCaches(size_t cap, int sliceNum)`
constructor: `sliceNum_` falls back to the hardware-concurrency hint `hw`
when the caller passes a non-positive count, `sliceSize` is computed as
`std::ceil(cap / (double)sliceNum_)` but is never used, and the loop runs
`sliceNum` (the parameter) times constructing `LruCache(sliceNum_)` shards. -/
def HashLruCaches.shards (cap : Nat) (sliceNum : Int) (hw : Nat) : List (LruCache K V) :=
  let sliceNumA : Int := if sliceNum > 0 then sliceNum else (hw : Int)
  List.replicate sliceNum.toNat (LruCache.init sliceNumA)

/-- The unused per-shard size computed by both sharded constructors:
`std::ceil(cap / (double)sliceNum_)`, i.e. the ceiling division. -/
def shardCeilSize (cap : Nat) (sliceNumA : Int) : Int :=
  ((cap : Int) + sliceNumA - 1) / sliceNumA

end HashLruDefs

section LfuDefs

variable {K V : Type} [DecidableEq K] [Inhabited K]

/-- State of `LfuCache` from `src/LFUCache.h`: the `int` fields
`capacity_`, `minFreq_` (initialized to `INT8_MAX` = 127), `maxAvgNum_`,
`curAvgNum_` and `curTotalNum_`; `nodeMap_` modelled as an entry list
`key -> (value, freq)`; and `freqToFreqList_` modelled as an association
list `freq -> bucket`, each bucket being the keys of its `FreqList` in list
order (head = `getFirstNode`, the oldest; `addNode` appends at the tail).
Buckets are created on demand and never erased by this cache. -/
structure LfuCache (K V : Type) where
  capacity : Int
  minFreq : Int
  maxAvgNum : Int
  curAvgNum : Int
  curTotalNum : Int
  nodeMap : List (K × V × Int)
  buckets : List (Int × List K)

/-- The `LfuCache(int cap, int maxAvgNum = 1000000)` constructor. -/
def LfuCache.init (cap maxAvg : Int) : LfuCache K V :=
  ⟨cap, 127, maxAvg, 0, 0, [], []⟩

/-- Lookup of a key in a node map: `nodeMap_.find(key)`, returning the
node's value and frequency (or access-count) field. -/
def lookupNode {K V C : Type} [DecidableEq K] : List (K × V × C) → K → Option (V × C)
  | [], _ => none
  | (k, v, f) :: rest, key => if k = key then some (v, f) else lookupNode rest key

/-- Overwrite of the first matching node's value (`node->setValue(value)`). -/
def setNodeValue {K V C : Type} [DecidableEq K] : List (K × V × C) → K → V → List (K × V × C)
  | [], _, _ => []
  | (k, v0, f) :: rest, key, v =>
    if k = key then (k, v, f) :: rest else (k, v0, f) :: setNodeValue rest key v

/-- Overwrite of the first matching node's frequency or access-count field. -/
def setNodeFreq {K V C : Type} [DecidableEq K] : List (K × V × C) → K → C → List (K × V × C)
  | [], _, _ => []
  | (k, v, f0) :: rest, key, f =>
    if k = key then (k, v, f) :: rest else (k, v, f0) :: setNodeFreq rest key f

/-- Removal of the first matching node (`nodeMap_.erase`). -/
def eraseNode {K V C : Type} [DecidableEq K] : List (K × V × C) → K → List (K × V × C)
  | [], _ => []
  | (k, v, f) :: rest, key => if k = key then rest else (k, v, f) :: eraseNode rest key

/-- The bucket stored for a frequency; a missing bucket behaves as the empty
`FreqList` (operator[] creates empty lists on demand, and every observation
the cache makes of an empty bucket coincides with that of a missing one). -/
def getBucket : List (Int × List K) → Int → List K
  | [], _ => []
  | (f, l) :: rest, freq => if f = freq then l else getBucket rest freq

/-- Replacement of the bucket stored for a frequency, appending a new pair
when the frequency is absent. -/
def setBucket : List (Int × List K) → Int → List K → List (Int × List K)
  | [], freq, l => [(freq, l)]
  | (f, l0) :: rest, freq, l =>
    if f = freq then (f, l) :: rest else (f, l0) :: setBucket rest freq l

/-- `removeFromFreqList(node)`: unlink the node from the bucket of its
frequency. -/
def LfuCache.removeFromFreqList (s : LfuCache K V) (key : K) (freq : Int) : LfuCache K V :=
  { s with buckets := setBucket s.buckets freq (eraseElem (getBucket s.buckets freq) key) }

/-- `addToFreqList(node)`: append the node at the tail of the bucket of its
frequency, creating the bucket when absent. -/
def LfuCache.addToFreqList (s : LfuCache K V) (key : K) (freq : Int) : LfuCache K V :=
  { s with buckets := setBucket s.buckets freq (getBucket s.buckets freq ++ [key]) }

/-- `updateMinFreq()` fold: `minFreq_` starts from the `INT8_MAX` sentinel
and takes the minimum over the frequencies of non-empty buckets. -/
def umfFold : List (Int × List K) → Int → Int
  | [], acc => acc
  | (f, l) :: rest, acc => umfFold rest (if l = [] then acc else min acc f)

/-- `updateMinFreq()`: recompute `minFreq_` from the live buckets; when the
sentinel survives (no bucket below or at 127 is non-empty) reset it to 1. -/
def LfuCache.updateMinFreq (s : LfuCache K V) : LfuCache K V :=
  let m := umfFold s.buckets 127
  { s with minFreq := if m = 127 then 1 else m }

/-- One step of the `handleOverMaxAvgNum` sweep for the node `(k, _, f)`:
remove from the old bucket, subtract `maxAvgNum_ / 2` (C++ truncating
division) from the frequency flooring at 1, and append to the new bucket. -/
def LfuCache.sweepStep (s : LfuCache K V) (k : K) (f : Int) : LfuCache K V :=
  let s1 := s.removeFromFreqList k f
  let f1 := f - Int.tdiv s.maxAvgNum 2
  let f2 := if f1 < 1 then 1 else f1
  let s2 := { s1 with nodeMap := setNodeFreq s1.nodeMap k f2 }
  s2.addToFreqList k f2

/-- The `handleOverMaxAvgNum` iteration over `nodeMap_` (each node's `freq`
is read when the iteration reaches it; since every key is visited exactly
once, that equals the frequency recorded before the sweep began). -/
def LfuCache.sweepList : List (K × V × Int) → LfuCache K V → LfuCache K V
  | [], s => s
  | (k, _, f) :: rest, s => LfuCache.sweepList rest (s.sweepStep k f)

/-- `handleOverMaxAvgNum()`: frequency compaction of every resident node
followed by `updateMinFreq()`. -/
def LfuCache.handleOverMaxAvgNum (s : LfuCache K V) : LfuCache K V :=
  if s.nodeMap.isEmpty then s
  else (LfuCache.sweepList s.nodeMap s).updateMinFreq

/-- `addFreqNum()`: increment `curTotalNum_`, recompute `curAvgNum_`
(`curTotalNum_ / nodeMap_.size()` is a `size_t` division whose result is
stored back into an `int`), and run the aging sweep when the average
exceeds `maxAvgNum_`. -/
def LfuCache.addFreqNum (s : LfuCache K V) : LfuCache K V :=
  let total := s.curTotalNum + 1
  let avg := if s.nodeMap.isEmpty then 0 else intOfUsize (usize total / s.nodeMap.length)
  let s1 := { s with curTotalNum := total, curAvgNum := avg }
  if avg > s1.maxAvgNum then s1.handleOverMaxAvgNum else s1

/-- `decreaseFreqNum(int num)`: decrement `curTotalNum_` by the evicted
frequency and recompute `curAvgNum_`. -/
def LfuCache.decreaseFreqNum (s : LfuCache K V) (num : Int) : LfuCache K V :=
  let total := s.curTotalNum - num
  let avg := if s.nodeMap.isEmpty then 0 else intOfUsize (usize total / s.nodeMap.length)
  { s with curTotalNum := total, curAvgNum := avg }

/-- `getInternal(node, value)` for a node with the given value and
frequency: move the node from bucket `f` to bucket `f + 1`, bump
`minFreq_` when the node left an emptied minimum bucket, and update the
frequency totals.  Returns the value written to the out-parameter. -/
def LfuCache.getInternal (s : LfuCache K V) (key : K) (v : V) (f : Int) : V × LfuCache K V :=
  let s1 := s.removeFromFreqList key f
  let s2 := { s1 with nodeMap := setNodeFreq s1.nodeMap key (f + 1) }
  let s3 := s2.addToFreqList key (f + 1)
  let s4 :=
    if f = s3.minFreq ∧ getBucket s3.buckets f = [] then
      { s3 with minFreq := s3.minFreq + 1 }
    else s3
  (v, s4.addFreqNum)

/-- `kickOut()`: evict the first node of the `minFreq_` bucket.  When that
bucket is empty or missing, `getFirstNode` returns the dummy tail node, so
the unlink is a no-op, `nodeMap_.erase` targets the default-constructed key
`Key()`, and `decreaseFreqNum` receives the dummy's frequency 1. -/
def LfuCache.kickOut (s : LfuCache K V) : LfuCache K V :=
  match getBucket s.buckets s.minFreq with
  | firstKey :: _ =>
    let f := match lookupNode s.nodeMap firstKey with
      | some (_, f0) => f0
      | none => s.minFreq
    let s1 := s.removeFromFreqList firstKey f
    let s2 := { s1 with nodeMap := eraseNode s1.nodeMap firstKey }
    s2.decreaseFreqNum f
  | [] =>
    let s2 := { s with nodeMap := eraseNode s.nodeMap default }
    s2.decreaseFreqNum 1

/-- `putInternal(key, value)`: evict when `nodeMap_.size() == capacity_`
(a `size_t`/`int` comparison), insert the new node with frequency 1 into
bucket 1, update the totals, and lower `minFreq_` to 1. -/
def LfuCache.putInternal (s : LfuCache K V) (key : K) (v : V) : LfuCache K V :=
  let s1 := if s.nodeMap.length = usize s.capacity then s.kickOut else s
  let s2 := { s1 with nodeMap := s1.nodeMap ++ [(key, v, 1)] }
  let s3 := s2.addToFreqList key 1
  let s4 := s3.addFreqNum
  { s4 with minFreq := min s4.minFreq 1 }

/-- `void put(Key, Value)`: returns immediately when `!capacity_` (note:
only capacity exactly 0 is rejected); on a hit overwrites the value and
re-runs the access path `getInternal`; otherwise `putInternal`. -/
def LfuCache.put (s : LfuCache K V) (key : K) (v : V) : LfuCache K V :=
  if s.capacity = 0 then s
  else
    match lookupNode s.nodeMap key with
    | some (_, f) =>
      (LfuCache.getInternal { s with nodeMap := setNodeValue s.nodeMap key v } key v f).2
    | none => s.putInternal key v

/-- `bool get(Key, Value&)`: on a hit runs `getInternal` and reports the
stored value; on a miss leaves the state untouched. -/
def LfuCache.get (s : LfuCache K V) (key : K) : Option V × LfuCache K V :=
  match lookupNode s.nodeMap key with
  | some (v, f) =>
    let r := s.getInternal key v f
    (some r.1, r.2)
  | none => (none, s)

/-- `void purge()`: clear the node map and delete all frequency lists (the
scalar bookkeeping fields are left untouched by the source). -/
def LfuCache.purge (s : LfuCache K V) : LfuCache K V :=
  { s with nodeMap := [], buckets := [] }

end LfuDefs

section HashLfuDefs

variable (K V : Type)

/-- The shard vector built by the `HashLfuCache(size_t cap, int sliceNum,
int maxAvgNum = 10)` constructor: here each shard really is constructed
with the computed `sliceSize = std::ceil(cap / (double)sliceNum_)`; the
loop again runs `sliceNum` (the parameter) times. -/
def HashLfuCache.shards (cap : Nat) (sliceNum : Int) (hw : Nat) (maxAvg : Int) :
    List (LfuCache K V) :=
  let sliceNumA : Int := if sliceNum > 0 then sliceNum else (hw : Int)
  List.replicate sliceNum.toNat (LfuCache.init (shardCeilSize cap sliceNumA) maxAvg)

end HashLfuDefs

section ArcDefs

variable {K V : Type} [DecidableEq K]

/-- State of `ArcLruPart` from `src/ArcCache/ArcLruPart.h`: `size_t`
capacities and threshold, the main list (head = most recent, since
`addToFront` links after `mainHead_` and `evictLeastRecent` takes
`mainTail_->prev_`) carrying each node's value and access count, and the
ghost list of evicted keys (head = newest ghost, since `addToGhost` links
after `ghostHead_` and `removeOldestGhost` takes `ghostTail_->prev_`).
The node type `ArcNode` lives in `ArcCacheNode.h`, which is absent from
the sources; modelled from the spec: a node holds `key`, `value` and an
`access_count` starting at 1 on insertion. -/
structure ArcLruPart (K V : Type) where
  capacity : Nat
  ghostCapacity : Nat
  transformThreshold : Nat
  mainList : List (K × V × Nat)
  ghostList : List K

/-- The `ArcLruPart(size_t cap, size_t transformThreshold)` constructor:
main capacity `cap`, ghost capacity `cap`, empty lists. -/
def ArcLruPart.init (cap thr : Nat) : ArcLruPart K V :=
  ⟨cap, cap, thr, [], []⟩

/-- `evictLeastRecent()`: unlink the node before `mainTail_` (a no-op on an
empty list), drop the oldest ghost first when the ghost list is at its
capacity, then prepend the key to the ghost list (with its access count
reset) and erase it from the main map. -/
def ArcLruPart.evictLeastRecent (s : ArcLruPart K V) : ArcLruPart K V :=
  match s.mainList.getLast? with
  | none => s
  | some (k, _, _) =>
    let ghost1 :=
      if s.ghostList.length ≥ s.ghostCapacity then s.ghostList.dropLast else s.ghostList
    { s with mainList := s.mainList.dropLast, ghostList := k :: ghost1 }

/-- `bool put(Key, Value)`: rejected when `!capacity_`; on a hit
`updateExistingNode` overwrites the value and moves the node to the front
(access count unchanged); otherwise `addNewNode` evicts the least-recent
node when `mainCache_.size() >= capacity_` and links a fresh node (access
count 1) at the front. -/
def ArcLruPart.put (s : ArcLruPart K V) (key : K) (v : V) : Bool × ArcLruPart K V :=
  if s.capacity = 0 then (false, s)
  else
    match lookupNode s.mainList key with
    | some (_, cnt) =>
      (true, { s with mainList := (key, v, cnt) :: eraseNode s.mainList key })
    | none =>
      let s1 := if s.mainList.length ≥ s.capacity then s.evictLeastRecent else s
      (true, { s1 with mainList := (key, v, 1) :: s1.mainList })

/-- `bool get(Key, Value&, bool&)` exactly as written in the source: the
taken branch is `it == mainCache_.end()`, i.e. the MISS branch, whose body
dereferences the end iterator (`it->second`) — undefined behaviour, modelled
as `none`.  On a key that IS resident the function falls through and
returns `false` without touching the state or either out-parameter. -/
def ArcLruPart.get (s : ArcLruPart K V) (key : K) :
    Option (Bool × Option V × Option Bool × ArcLruPart K V) :=
  match lookupNode s.mainList key with
  | none => none
  | some _ => some (false, none, none, s)

/-- The intended hit path `updateNodeAccess` (reachable only through the
undefined-behaviour branch above): move to front, increment the access
count, and report `access_count >= transformThreshold_`. -/
def ArcLruPart.updateNodeAccess (s : ArcLruPart K V) (key : K) : Bool × ArcLruPart K V :=
  match lookupNode s.mainList key with
  | none => (false, s)
  | some (v, cnt) =>
    (cnt + 1 ≥ s.transformThreshold,
      { s with mainList := (key, v, cnt + 1) :: eraseNode s.mainList key })

/-- `bool checkGhost(Key)`: remove the key from the ghost list and report
whether it was there.  (The source takes no lock here.) -/
def ArcLruPart.checkGhost (s : ArcLruPart K V) (key : K) : Bool × ArcLruPart K V :=
  if key ∈ s.ghostList then (true, { s with ghostList := eraseElem s.ghostList key })
  else (false, s)

/-- `void increaseCapacity()`. -/
def ArcLruPart.increaseCapacity (s : ArcLruPart K V) : ArcLruPart K V :=
  { s with capacity := s.capacity + 1 }

/-- `bool decreaseCapacity()`: refuse at capacity 0; evict first when the
main cache is exactly full, then decrement. -/
def ArcLruPart.decreaseCapacity (s : ArcLruPart K V) : Bool × ArcLruPart K V :=
  if s.capacity = 0 then (false, s)
  else
    let s1 := if s.mainList.length = s.capacity then s.evictLeastRecent else s
    (true, { s1 with capacity := s1.capacity - 1 })

/-- State of `ArcLfuPart` from `src/ArcCache/ArcLfuPart.h`: `size_t`
capacities, threshold and `minFreq_` (initialized to 0), the main map
`key -> (value, access count)`, the frequency map `freq -> list of keys`
(buckets are erased when they empty, unlike `LfuCache`), and the ghost list
(head = oldest, since this part's `addToGhost` links before `ghostTail_`
and `removeOldestGhost` takes `ghostHead_->next_`). -/
structure ArcLfuPart (K V : Type) where
  capacity : Nat
  ghostCapacity : Nat
  transformThreshold : Nat
  minFreq : Nat
  mainMap : List (K × V × Nat)
  freqMap : List (Nat × List K)
  ghostList : List K

/-- The `ArcLfuPart(size_t capacity, size_t transformThreshold)`
constructor. -/
def ArcLfuPart.init (cap thr : Nat) : ArcLfuPart K V :=
  ⟨cap, cap, thr, 0, [], [], []⟩

/-- Bucket lookup in the ARC frequency map (missing behaves as empty). -/
def getBucketN : List (Nat × List K) → Nat → List K
  | [], _ => []
  | (f, l) :: rest, freq => if f = freq then l else getBucketN rest freq

/-- Bucket replacement in the ARC frequency map (appended when missing,
mirroring `operator[]` insertion). -/
def setBucketN : List (Nat × List K) → Nat → List K → List (Nat × List K)
  | [], freq, l => [(freq, l)]
  | (f, l0) :: rest, freq, l =>
    if f = freq then (f, l) :: rest else (f, l0) :: setBucketN rest freq l

/-- Erasure of a frequency's bucket (`freqMap_.erase(freq)`). -/
def eraseBucketN : List (Nat × List K) → Nat → List (Nat × List K)
  | [], _ => []
  | (f, l) :: rest, freq => if f = freq then rest else (f, l) :: eraseBucketN rest freq

/-- `updateNodeFrequency(node)`: move the key from its old frequency bucket
to the next one, erasing the old bucket when it empties and pushing
`minFreq_` to the new frequency when the emptied bucket was the minimum. -/
def ArcLfuPart.updateNodeFrequency (s : ArcLfuPart K V) (key : K) (oldFreq : Nat) :
    ArcLfuPart K V :=
  let newFreq := oldFreq + 1
  let m1 := { s with mainMap := setNodeFreq s.mainMap key newFreq }
  let oldList := eraseElem (getBucketN m1.freqMap oldFreq) key
  let m2 :=
    if oldList = [] then
      { m1 with
          freqMap := eraseBucketN m1.freqMap oldFreq
          minFreq := if oldFreq = m1.minFreq then newFreq else m1.minFreq }
    else { m1 with freqMap := setBucketN m1.freqMap oldFreq oldList }
  { m2 with freqMap := setBucketN m2.freqMap newFreq (getBucketN m2.freqMap newFreq ++ [key]) }

/-- `evictLeastFrequent()`: nothing to do on an empty frequency map; pop the
front of the `minFreq_` bucket (an empty or missing bucket again aborts),
erase the bucket when it empties and move `minFreq_` to the frequency of the
first remaining map entry, demote the evicted key to the ghost list (the
oldest ghost being dropped first when that list is full), and erase the key
from the main map. -/
def ArcLfuPart.evictLeastFrequent (s : ArcLfuPart K V) : ArcLfuPart K V :=
  if s.freqMap = [] then s
  else
    match getBucketN s.freqMap s.minFreq with
    | [] => s
    | leastKey :: restBucket =>
      let s1 :=
        if restBucket = [] then
          let fm := eraseBucketN s.freqMap s.minFreq
          { s with
              freqMap := fm
              minFreq :=
                match fm.head? with
                | some (f, _) => f
                | none => s.minFreq }
        else { s with freqMap := setBucketN s.freqMap s.minFreq restBucket }
      let ghost1 :=
        if s1.ghostList.length ≥ s1.ghostCapacity then s1.ghostList.drop 1 else s1.ghostList
      { s1 with
          ghostList := ghost1 ++ [leastKey]
          mainMap := eraseNode s1.mainMap leastKey }

/-- `bool put(Key, Value)`: rejected when `!capacity_`; on a hit overwrite
the value and run `updateNodeFrequency`; otherwise evict when at capacity
and insert a fresh node with access count 1 into bucket 1, setting
`minFreq_ = 1`. -/
def ArcLfuPart.put (s : ArcLfuPart K V) (key : K) (v : V) : Bool × ArcLfuPart K V :=
  if s.capacity = 0 then (false, s)
  else
    match lookupNode s.mainMap key with
    | some (_, cnt) =>
      (true, ArcLfuPart.updateNodeFrequency { s with mainMap := setNodeValue s.mainMap key v } key cnt)
    | none =>
      let s1 := if s.mainMap.length ≥ s.capacity then s.evictLeastFrequent else s
      let s2 := { s1 with mainMap := s1.mainMap ++ [(key, v, 1)] }
      (true,
        { s2 with
            freqMap := setBucketN s2.freqMap 1 (getBucketN s2.freqMap 1 ++ [key])
            minFreq := 1 })

/-- `bool get(Key, Value&)`: a genuine hit test (`it != mainCache_.end()`);
on a hit `updateNodeFrequency` runs and the stored value is reported. -/
def ArcLfuPart.get (s : ArcLfuPart K V) (key : K) : Option V × ArcLfuPart K V :=
  match lookupNode s.mainMap key with
  | some (v, cnt) => (some v, s.updateNodeFrequency key cnt)
  | none => (none, s)

/-- `bool contain(Key)`. -/
def ArcLfuPart.contain (s : ArcLfuPart K V) (key : K) : Bool :=
  (lookupNode s.mainMap key).isSome

/-- `bool checkGhost(Key)` of the LFU part (again lock-free in the source). -/
def ArcLfuPart.checkGhost (s : ArcLfuPart K V) (key : K) : Bool × ArcLfuPart K V :=
  if key ∈ s.ghostList then (true, { s with ghostList := eraseElem s.ghostList key })
  else (false, s)

/-- `void increaseCapacity()`. -/
def ArcLfuPart.increaseCapacity (s : ArcLfuPart K V) : ArcLfuPart K V :=
  { s with capacity := s.capacity + 1 }

/-- `bool decreaseCapacity()`: refuse at capacity 0; evict first when the
main cache is exactly full, then decrement. -/
def ArcLfuPart.decreaseCapacity (s : ArcLfuPart K V) : Bool × ArcLfuPart K V :=
  if s.capacity = 0 then (false, s)
  else
    let s1 := if s.mainMap.length = s.capacity then s.evictLeastFrequent else s
    (true, { s1 with capacity := s1.capacity - 1 })

end ArcDefs

section ArcCacheDefs

variable {K V : Type} [DecidableEq K] [Inhabited V]

/-- State of `ArcCache` exactly as declared in `src/ArcCache/ArcCache.h`:
`size_t capacity_`, `size_t transformThreshold_`, and the two
`std::unique_ptr` sub-cache fields, which the constructor never initializes
and which therefore remain null (`none`). -/
structure ArcCacheRaw (K V : Type) where
  capacity : Nat
  transformThreshold : Nat
  lruPart : Option (ArcLruPart K V)
  lfuPart : Option (ArcLfuPart K V)

/-- The `ArcCache(size_t cap = 10, size_t transformThreshold = 2)`
constructor as written: it stores the two scalars and constructs neither
sub-cache, so both `unique_ptr` fields are default-constructed null. -/
def ArcCacheRaw.init (cap thr : Nat) : ArcCacheRaw K V :=
  ⟨cap, thr, none, none⟩

/-- `ArcCache::put` on the raw state: the very first step,
`checkGhostCaches(key)`, calls `lruPart_->checkGhost(key)`, which
dereferences a null pointer whenever the sub-caches were never constructed
— undefined behaviour, modelled as `none`. -/
def ArcCacheRaw.put (s : ArcCacheRaw K V) (_key : K) (_v : V) : Option (ArcCacheRaw K V) :=
  match s.lruPart, s.lfuPart with
  | some _, some _ => some s
  | _, _ => none

/-- `ArcCache::get` on the raw state: undefined for the same reason. -/
def ArcCacheRaw.get (s : ArcCacheRaw K V) (_key : K) : Option (Option V × ArcCacheRaw K V) :=
  match s.lruPart, s.lfuPart with
  | some _, some _ => some (none, s)
  | _, _ => none

/-- Working ARC state with both sub-caches present.  Modelled from the
spec: the constructor in `ArcCache.h` never allocates `lruPart_` and
`lfuPart_`; per spec sections 4.5 and 9.2 each sub-cache is constructed
with main capacity `c`, ghost capacity `c`, and the transform threshold.
Every other operation below is translated from `ArcCache.h` itself. -/
structure ArcCache (K V : Type) where
  capacity : Nat
  transformThreshold : Nat
  lruPart : ArcLruPart K V
  lfuPart : ArcLfuPart K V

/-- Modelled from the spec: `ArcCache` construction with both sub-caches
allocated at capacity `cap` and threshold `thr` (the ghost capacity of each
part equals its main capacity, as the part constructors dictate). -/
def ArcCache.init (cap thr : Nat) : ArcCache K V :=
  ⟨cap, thr, ArcLruPart.init cap thr, ArcLfuPart.init cap thr⟩

/-- `bool checkGhostCaches(Key)`: a hit in the LRU ghost removes the ghost
and shifts one unit of capacity from the LFU part to the LRU part provided
`decreaseCapacity` succeeded; otherwise a hit in the LFU ghost shifts one
unit the other way.  (The returned `inGhost` flag is set only in the LFU
ghost branch.) -/
def ArcCache.checkGhostCaches (s : ArcCache K V) (key : K) : Bool × ArcCache K V :=
  let g1 := s.lruPart.checkGhost key
  if g1.1 then
    let d := s.lfuPart.decreaseCapacity
    if d.1 then
      (false, { s with lruPart := g1.2.increaseCapacity, lfuPart := d.2 })
    else (false, { s with lruPart := g1.2, lfuPart := d.2 })
  else
    let g2 := s.lfuPart.checkGhost key
    if g2.1 then
      let d := s.lruPart.decreaseCapacity
      if d.1 then
        (true, { s with lruPart := d.2, lfuPart := g2.2.increaseCapacity })
      else (true, { s with lruPart := d.2, lfuPart := g2.2 })
    else (false, s)

/-- `void ArcCache::put(Key, Value)`: adapt on ghost hits, record whether
the key is LFU-resident, insert into the LRU part, and refresh the LFU copy
when it was resident there. -/
def ArcCache.put (s : ArcCache K V) (key : K) (v : V) : ArcCache K V :=
  let s1 := (s.checkGhostCaches key).2
  let inLfu := s1.lfuPart.contain key
  let s2 := { s1 with lruPart := (s1.lruPart.put key v).2 }
  if inLfu then { s2 with lfuPart := (s2.lfuPart.put key v).2 } else s2

/-- `bool ArcCache::get(Key, Value&)`: adapt on ghost hits, try the LRU
part (whose `get` is undefined behaviour on a miss — propagated as `none`),
promote into the LFU part when the transform flag was set, and otherwise
fall through to the LFU part. -/
def ArcCache.get (s : ArcCache K V) (key : K) : Option (Option V × ArcCache K V) :=
  let s1 := (s.checkGhostCaches key).2
  match s1.lruPart.get key with
  | none => none
  | some (hit, wv, wst, lru1) =>
    let s2 := { s1 with lruPart := lru1 }
    if hit then
      let st := wst.getD false
      let s3 :=
        if st then { s2 with lfuPart := (s2.lfuPart.put key (wv.getD default)).2 } else s2
      some (wv, s3)
    else
      let r := s2.lfuPart.get key
      some (r.1, { s2 with lfuPart := r.2 })

/-- The combined resident capacity of the two sub-caches, the quantity
invariant I4 speaks about. -/
def ArcCache.capSum (s : ArcCache K V) : Nat :=
  s.lruPart.capacity + s.lfuPart.capacity

end ArcCacheDefs

section InvariantDefs

variable {K V : Type} [DecidableEq K] [Inhabited K]

/-- The keys of a node map. -/
def nodeKeys {A B C : Type} (l : List (A × B × C)) : List A :=
  l.map Prod.fst

/-- The keys of the nodes whose frequency field equals `f`, in node-map
order. -/
def keysWithFreq {A B : Type} : List (A × B × Int) → Int → List A
  | [], _ => []
  | (k, _, f0) :: rest, f =>
    if f0 = f then k :: keysWithFreq rest f else keysWithFreq rest f

/-- The frequencies whose stored bucket is non-empty, in map order. -/
def nonemptyBucketFreqs {A : Type} (bs : List (Int × List A)) : List Int :=
  (bs.filter (fun p => !p.2.isEmpty)).map Prod.fst

/-- Invariant P4 / I3 of the spec, for the LFU cache: when the cache is
non-empty, `minFreq_` is a frequency with a non-empty bucket and is the
least such frequency. -/
def LfuCache.minFreqOk (s : LfuCache K V) : Prop :=
  s.nodeMap ≠ [] →
    s.minFreq ∈ nonemptyBucketFreqs s.buckets ∧
      ∀ f ∈ nonemptyBucketFreqs s.buckets, s.minFreq ≤ f

instance {K V : Type} [DecidableEq K] [DecidableEq V] (s : LfuCache K V) :
    Decidable s.minFreqOk := by
  unfold LfuCache.minFreqOk
  infer_instance

/-- The structural invariant of `LfuCache`: node keys are unique (they
mirror an `unordered_map`), bucket frequencies are unique, every bucket
holds exactly the keys of the nodes at its frequency (up to order), every
node's frequency has a bucket entry, frequencies are at least 1, `minFreq_`
is at least 1, and `minFreq_` is correct in the sense of P4. -/
def LfuCache.inv (s : LfuCache K V) : Prop :=
  (nodeKeys s.nodeMap).Nodup ∧
    (s.buckets.map Prod.fst).Nodup ∧
    (∀ p ∈ s.buckets, List.Perm p.2 (keysWithFreq s.nodeMap p.1)) ∧
    (∀ e ∈ s.nodeMap, e.2.2 ∈ s.buckets.map Prod.fst) ∧
    (∀ e ∈ s.nodeMap, 1 ≤ e.2.2) ∧
    1 ≤ s.minFreq ∧
    s.minFreqOk

instance {K V : Type} [DecidableEq K] [DecidableEq V] (s : LfuCache K V) :
    Decidable s.inv := by
  unfold LfuCache.inv
  infer_instance

end InvariantDefs

section OpDefs

variable {K V : Type} [DecidableEq K] [Inhabited K]

/-- A public cache operation, used to state properties over arbitrary
operation sequences.  `remove` is offered by the LRU cache only and
`purge` by the LFU cache only; a runner ignores the operation its cache
does not offer. -/
inductive CacheOp (K V : Type) where
  | put (key : K) (v : V)
  | get (key : K)
  | remove (key : K)
  | purge

/-- One public operation on an `LruCache`. -/
def LruCache.runOp (s : LruCache K V) : CacheOp K V → LruCache K V
  | .put k v => s.put k v
  | .get k => (s.getB k).2
  | .remove k => s.remove k
  | .purge => s

/-- A sequence of public operations on an `LruCache`. -/
def LruCache.runOps (s : LruCache K V) (ops : List (CacheOp K V)) : LruCache K V :=
  ops.foldl LruCache.runOp s

/-- One public operation on an `LfuCache`. -/
def LfuCache.runOp (s : LfuCache K V) : CacheOp K V → LfuCache K V
  | .put k v => s.put k v
  | .get k => (s.get k).2
  | .remove _ => s
  | .purge => s.purge

/-- A sequence of public operations on an `LfuCache`. -/
def LfuCache.runOps (s : LfuCache K V) (ops : List (CacheOp K V)) : LfuCache K V :=
  ops.foldl LfuCache.runOp s

/-- Iterated `get` of the key 1, the access trace that drives the LFU
`minFreq_` sentinel counterexample. -/
def lfuGetOnes : Nat → LfuCache Nat Nat → LfuCache Nat Nat
  | 0, s => s
  | n + 1, s => lfuGetOnes n (s.get 1).2

end OpDefs

section C8Defs

variable {K V : Type} [DecidableEq K] [Inhabited K]

/-- The frequency produced by one step of the LFU aging sweep:
`freq - maxAvgNum_/2` (C++ truncating division) floored at 1. -/
def lfuCompress (maxAvg f : Int) : Int :=
  if f - Int.tdiv maxAvg 2 < 1 then 1 else f - Int.tdiv maxAvg 2

/-- Agreement of the frequency buckets with the node map: for every
frequency, the stored bucket holds exactly the keys of the nodes at that
frequency, in some order. -/
def BucketAgree (m : List (K × V × Int)) (bs : List (Int × List K)) : Prop :=
  ∀ f, List.Perm (getBucket bs f) (keysWithFreq m f)

/-- The bookkeeping core of the LFU invariant: unique node keys, unique
bucket frequencies, bucket/node agreement, and frequencies at least 1. -/
def LfuAux (s : LfuCache K V) : Prop :=
  (nodeKeys s.nodeMap).Nodup ∧
    (s.buckets.map Prod.fst).Nodup ∧
    BucketAgree s.nodeMap s.buckets ∧
    (∀ e ∈ s.nodeMap, 1 ≤ e.2.2)

/-- P4 phrased through `getBucket`: on a non-empty cache, `minFreq_` has a
non-empty bucket and every non-empty bucket frequency is at least
`minFreq_`. -/
def MinOkG (s : LfuCache K V) : Prop :=
  s.nodeMap ≠ [] →
    getBucket s.buckets s.minFreq ≠ [] ∧
      ∀ f, getBucket s.buckets f ≠ [] → s.minFreq ≤ f

end C8Defs

/-- C4: on an LRU cache of capacity 2, the sequence put(1,a); put(2,b);
get(1); put(3,c) returns a for the first get, evicts key 2 (the least
recent) at the insertion of key 3, and afterwards get(2) misses while
get(1) and get(3) return their stored values (keys 1 and 3 are exactly
the residents). -/
theorem c4_lru_scenario :
    (((((LruCache.init 2 : LruCache Nat Nat).put 1 10).put 2 20).getB 1).1 = some 10) ∧
      ((((((LruCache.init 2 : LruCache Nat Nat).put 1 10).put 2 20).getB 1).2.put 3 30).entries
          = [(1, 10), (3, 30)]) ∧
      (((((((LruCache.init 2 : LruCache Nat Nat).put 1 10).put 2 20).getB 1).2.put 3 30).getB 2).1
          = none) ∧
      (((((((LruCache.init 2 : LruCache Nat Nat).put 1 10).put 2 20).getB 1).2.put 3 30).getB 1).1
          = some 10) ∧
      (((((((LruCache.init 2 : LruCache Nat Nat).put 1 10).put 2 20).getB 1).2.put 3 30).getB 3).1
          = some 30) := by
  decide

/-- C2: the `ArcCache` constructor as written in the source stores only the
two scalars; both sub-cache `unique_ptr` fields remain null, and the first
`put` (or `get`) dereferences a null pointer — concretely, on
`ArcCache(2, 2)`, `put(1, 10)` and `get(1)` are undefined behaviour. -/
theorem c2_null_subcaches :
    ((ArcCacheRaw.init 2 2 : ArcCacheRaw Nat Nat).lruPart = none) ∧
      ((ArcCacheRaw.init 2 2 : ArcCacheRaw Nat Nat).lfuPart = none) ∧
      ((ArcCacheRaw.init 2 2 : ArcCacheRaw Nat Nat).put 1 10 = none) ∧
      ((ArcCacheRaw.init 2 2 : ArcCacheRaw Nat Nat).get 1 = none) :=
  ⟨rfl, rfl, rfl, rfl⟩

/-- C3: `ArcLruPart::get` branches on `it == mainCache_.end()`, the
opposite of the claim: after `put(1, 10)` on a fresh part of capacity 2,
key 1 is resident in the main cache yet `get(1)` returns false, touching
neither the state nor the out-parameters, while `get(2)` (a miss) takes
the branch that dereferences the end iterator — undefined behaviour. -/
theorem c3_inverted_branch :
    (lookupNode (((ArcLruPart.init 2 2 : ArcLruPart Nat Nat).put 1 10).2).mainList 1
        = some (10, 1)) ∧
      ((((ArcLruPart.init 2 2 : ArcLruPart Nat Nat).put 1 10).2).get 1
          = some (false, none, none, (((ArcLruPart.init 2 2 : ArcLruPart Nat Nat).put 1 10).2))) ∧
      ((((ArcLruPart.init 2 2 : ArcLruPart Nat Nat).put 1 10).2).get 2 = none) :=
  ⟨rfl, rfl, rfl⟩

/-- C6: `HashLruCaches(100, 3)` builds three LRU shards whose capacity is
the shard count 3, not the computed `ceil(100/3) = 34` (the computed
`sliceSize` is discarded), whereas `HashLfuCache(100, 3)` really builds
three LFU shards of capacity 34. -/
theorem c6_shard_capacity :
    ((HashLruCaches.shards Nat Nat 100 3 8).map (fun c => c.capacity) = [3, 3, 3]) ∧
      (shardCeilSize 100 3 = 34) ∧
      ((HashLruCaches.shards Nat Nat 100 3 8).map (fun c => c.capacity)
          ≠ List.replicate 3 (shardCeilSize 100 3)) ∧
      ((HashLfuCache.shards Nat Nat 100 3 8 10).map (fun c => c.capacity)
          = List.replicate 3 (shardCeilSize 100 3)) := by
  decide

/-- C1 counterexample: on an LRU-K cache with k = 3 (main capacity 2,
history capacity 10, no capacity violation), `put(1, 10)` immediately
followed by `get(1)` returns the default value 0, not the stored 10 — the
pair of accesses is below the promotion threshold, so the claim fails as
stated for the LRU-K policy. -/
theorem c1_put_get_counterexample :
    (((LruKCache.init 2 10 3 : LruKCache Nat Nat).put 1 10).get 1).1 ≠ 10 := by
  decide

/-- C5 counterexample: `LfuCache` guards `put` with `!capacity_`, which
rejects only capacity exactly 0; with capacity −1 (≤ 0), `put(1, 10)`
stores the entry and `get(1)` hits, contradicting the claim that every
non-positive-capacity cache stays empty and always misses. -/
theorem c5_negative_capacity_counterexample :
    (((LfuCache.init (-1) 1000000 : LfuCache Nat Nat).put 1 10).nodeMap ≠ []) ∧
      ((((LfuCache.init (-1) 1000000 : LfuCache Nat Nat).put 1 10).get 1).1 = some 10) := by
  decide

/-- C7 counterexample: with the sub-caches constructed the way the spec
prescribes (each with main capacity c), an ARC cache built with total
capacity 2 starts with `lru.capacity + lfu.capacity = 4`, not the
user-specified total 2 — the conserved sum is twice the total. -/
theorem c7_sum_counterexample :
    (ArcCache.init 2 2 : ArcCache Nat Nat).capSum ≠ 2 := by
  decide

set_option maxRecDepth 100000 in
/-- C8 counterexample: on an LFU cache of capacity 1 with `maxAvgNum = 0`
(so the aging sweep runs on every access), `put(1, 10)` followed by 126
calls of `get(1)` drives the node's frequency to 127 = `INT8_MAX`; the
sweep's `updateMinFreq` then mistakes its own sentinel for "no bucket"
and resets `minFreq_` to 1 although the only non-empty bucket has
frequency 127 — P4 is violated after a public operation. -/
theorem c8_sentinel_counterexample :
    ¬ LfuCache.minFreqOk (lfuGetOnes 126 ((LfuCache.init 1 0).put 1 10)) := by
  decide

section AssocLemmas

variable {K V : Type} [DecidableEq K]

lemma lookupEntry_append (l1 l2 : List (K × V)) (key : K) :
    lookupEntry (l1 ++ l2) key =
      match lookupEntry l1 key with
      | some v => some v
      | none => lookupEntry l2 key := by
  induction l1 with
  | nil => simp [lookupEntry]
  | cons e rest ih =>
    obtain ⟨k, v⟩ := e
    by_cases h : k = key <;> simp [lookupEntry, h, ih]

lemma lookupEntry_eq_none (l : List (K × V)) (key : K) :
    lookupEntry l key = none ↔ key ∉ keysOf l := by
  induction l with
  | nil => simp [lookupEntry, keysOf]
  | cons e rest ih =>
    obtain ⟨k, v⟩ := e
    by_cases h : k = key
    · subst h
      simp [lookupEntry, keysOf]
    · have hk2 : ¬ key = k := fun hc => h hc.symm
      rw [lookupEntry, if_neg h, ih]
      simp [keysOf, hk2]

lemma keysOf_eraseKey_subset (l : List (K × V)) (key : K) :
    ∀ a ∈ keysOf (eraseKey l key), a ∈ keysOf l := by
  induction l with
  | nil => simp [eraseKey, keysOf]
  | cons e rest ih =>
    obtain ⟨k, v⟩ := e
    by_cases h : k = key
    · intro a ha
      subst h
      rw [eraseKey, if_pos rfl] at ha
      simp only [keysOf, List.map_cons, List.mem_cons]
      exact Or.inr (by simpa [keysOf] using ha)
    · intro a ha
      simp only [eraseKey, h, ite_false, keysOf, List.map_cons, List.mem_cons] at ha ⊢
      rcases ha with ha | ha
      · exact Or.inl ha
      · exact Or.inr (ih a ha)

lemma keysOf_eraseKey_nodup (l : List (K × V)) (key : K)
    (h : (keysOf l).Nodup) : (keysOf (eraseKey l key)).Nodup := by
  induction l with
  | nil => simp [eraseKey, keysOf]
  | cons e rest ih =>
    obtain ⟨k, v⟩ := e
    simp only [keysOf, List.map_cons, List.nodup_cons] at h
    by_cases hk : k = key
    · simpa [eraseKey, hk, keysOf] using h.2
    · simp only [eraseKey, hk, ite_false, keysOf, List.map_cons, List.nodup_cons]
      exact ⟨fun hc => h.1 (keysOf_eraseKey_subset rest key k hc), ih h.2⟩

lemma lookupEntry_eraseKey_self (l : List (K × V)) (key : K)
    (h : (keysOf l).Nodup) : lookupEntry (eraseKey l key) key = none := by
  induction l with
  | nil => simp [eraseKey, lookupEntry]
  | cons e rest ih =>
    obtain ⟨k, v⟩ := e
    simp only [keysOf, List.map_cons, List.nodup_cons] at h
    by_cases hk : k = key
    · subst hk
      rw [eraseKey, if_pos rfl, lookupEntry_eq_none]
      exact h.1
    · rw [eraseKey, if_neg hk, lookupEntry, if_neg hk]
      exact ih h.2

lemma lookupEntry_setEntry_self (l : List (K × V)) (key : K) (v : V) :
    lookupEntry (setEntry l key v) key = some v := by
  induction l with
  | nil => simp [setEntry, lookupEntry]
  | cons e rest ih =>
    obtain ⟨k, v0⟩ := e
    by_cases h : k = key <;> simp [setEntry, lookupEntry, h, ih]

lemma keysOf_setEntry_mem (l : List (K × V)) (key : K) (v : V) :
    ∀ a ∈ keysOf (setEntry l key v), a ∈ keysOf l ∨ a = key := by
  induction l with
  | nil => simp [setEntry, keysOf]
  | cons e rest ih =>
    obtain ⟨k, v0⟩ := e
    by_cases h : k = key
    · intro a ha
      subst h
      rw [setEntry, if_pos rfl] at ha
      simp only [keysOf, List.map_cons, List.mem_cons] at ha ⊢
      tauto
    · intro a ha
      simp only [setEntry, h, ite_false, keysOf, List.map_cons, List.mem_cons] at ha ⊢
      rcases ha with ha | ha
      · exact Or.inl (Or.inl ha)
      · rcases ih a ha with h2 | h2
        · exact Or.inl (Or.inr h2)
        · exact Or.inr h2

lemma keysOf_setEntry_nodup (l : List (K × V)) (key : K) (v : V)
    (h : (keysOf l).Nodup) : (keysOf (setEntry l key v)).Nodup := by
  induction l with
  | nil => simp [setEntry, keysOf]
  | cons e rest ih =>
    obtain ⟨k, v0⟩ := e
    simp only [keysOf, List.map_cons, List.nodup_cons] at h
    by_cases hk : k = key
    · subst hk
      rw [setEntry, if_pos rfl]
      simp only [keysOf, List.map_cons, List.nodup_cons]
      exact h
    · simp only [setEntry, hk, ite_false, keysOf, List.map_cons, List.nodup_cons]
      refine ⟨fun hc => ?_, ih h.2⟩
      rcases keysOf_setEntry_mem rest key v k hc with h2 | h2
      · exact h.1 h2
      · exact hk h2

end AssocLemmas

section LruLemmas

variable {K V : Type} [DecidableEq K]

lemma lru_getB_fst (s : LruCache K V) (key : K) :
    (s.getB key).1 = lookupEntry s.entries key := by
  unfold LruCache.getB
  cases h : lookupEntry s.entries key <;> simp [h]

lemma lru_getB_miss (s : LruCache K V) (key : K)
    (h : lookupEntry s.entries key = none) : (s.getB key).2 = s := by
  unfold LruCache.getB
  simp [h]

lemma lru_getB_capacity (s : LruCache K V) (key : K) :
    ((s.getB key).2).capacity = s.capacity := by
  unfold LruCache.getB
  cases h : lookupEntry s.entries key <;> simp [h]

lemma lru_put_capacity (s : LruCache K V) (key : K) (v : V) :
    ((s.put key v)).capacity = s.capacity := by
  unfold LruCache.put
  by_cases hc : s.capacity ≤ 0
  · simp [hc]
  · cases h : lookupEntry s.entries key <;> simp [hc, h]

lemma lru_getB_nodup (s : LruCache K V) (key : K)
    (h : (keysOf s.entries).Nodup) : (keysOf ((s.getB key).2).entries).Nodup := by
  unfold LruCache.getB
  cases hl : lookupEntry s.entries key with
  | none => simpa using h
  | some v =>
    simp only [keysOf, List.map_append, List.map_cons, List.map_nil]
    rw [List.nodup_append]
    refine ⟨keysOf_eraseKey_nodup s.entries key h, List.nodup_singleton key, ?_⟩
    intro a ha
    simp only [List.mem_singleton]
    intro hak
    have hnone := lookupEntry_eraseKey_self s.entries key h
    rw [lookupEntry_eq_none] at hnone
    exact hnone (hak ▸ ha)

lemma lru_put_nodup (s : LruCache K V) (key : K) (v : V)
    (h : (keysOf s.entries).Nodup) : (keysOf ((s.put key v)).entries).Nodup := by
  unfold LruCache.put
  by_cases hc : s.capacity ≤ 0
  · simpa [hc] using h
  · simp only [hc, ite_false]
    cases hl : lookupEntry s.entries key with
    | some v0 =>
      simp only [keysOf, List.map_append, List.map_cons, List.map_nil]
      rw [List.nodup_append]
      refine ⟨keysOf_eraseKey_nodup s.entries key h, List.nodup_singleton key, ?_⟩
      intro a ha
      simp only [List.mem_singleton]
      intro hak
      have hnone := lookupEntry_eraseKey_self s.entries key h
      rw [lookupEntry_eq_none] at hnone
      exact hnone (hak ▸ ha)
    | none =>
      have hnotin : key ∉ keysOf s.entries := (lookupEntry_eq_none s.entries key).mp hl
      by_cases hfull : s.entries.length ≥ usize s.capacity
      · simp only [hfull, ite_true, keysOf, List.map_append, List.map_cons, List.map_nil]
        rw [List.nodup_append]
        have hdrop : (keysOf (s.entries.drop 1)).Nodup := by
          have : (s.entries.drop 1).Sublist s.entries := List.drop_sublist 1 s.entries
          exact ((this.map Prod.fst).nodup h : (keysOf (s.entries.drop 1)).Nodup)
        refine ⟨hdrop, List.nodup_singleton key, ?_⟩
        intro a ha hmem
        simp only [List.mem_singleton] at hmem
        have hsub : (s.entries.drop 1).Sublist s.entries := List.drop_sublist 1 s.entries
        exact hnotin (hmem ▸ ((hsub.map Prod.fst).subset ha))
      · simp only [hfull, ite_false, keysOf, List.map_append, List.map_cons, List.map_nil]
        rw [List.nodup_append]
        refine ⟨h, List.nodup_singleton key, ?_⟩
        intro a ha hmem
        simp only [List.mem_singleton] at hmem
        exact hnotin (hmem ▸ ha)

lemma lru_put_lookup (s : LruCache K V) (key : K) (v : V)
    (hcap : 0 < s.capacity) (h : (keysOf s.entries).Nodup) :
    lookupEntry ((s.put key v)).entries key = some v := by
  unfold LruCache.put
  have hc : ¬ s.capacity ≤ 0 := by omega
  simp only [hc, ite_false]
  cases hl : lookupEntry s.entries key with
  | some v0 =>
    simp only
    rw [lookupEntry_append]
    rw [lookupEntry_eraseKey_self s.entries key h]
    simp [lookupEntry]
  | none =>
    simp only
    rw [lookupEntry_append]
    have hnotin : key ∉ keysOf s.entries := (lookupEntry_eq_none s.entries key).mp hl
    by_cases hfull : s.entries.length ≥ usize s.capacity
    · have hdrop : lookupEntry (s.entries.drop 1) key = none := by
        rw [lookupEntry_eq_none]
        intro hmem
        exact hnotin (((List.drop_sublist 1 s.entries).map Prod.fst).subset hmem)
      have htail : lookupEntry s.entries.tail key = none := by
        rw [← List.drop_one]
        exact hdrop
      simp [hfull, hdrop, htail, lookupEntry]
    · simp [hfull, hl, lookupEntry]

lemma lru_remove_lookup (s : LruCache K V) (key : K)
    (h : (keysOf s.entries).Nodup) :
    lookupEntry ((s.remove key)).entries key = none := by
  unfold LruCache.remove
  exact lookupEntry_eraseKey_self s.entries key h

end LruLemmas

section C5Section

variable {K V : Type} [DecidableEq K] [Inhabited K]

lemma lru_runOp_inert (cap : Int) (hc : cap ≤ 0) (op : CacheOp K V) :
    LruCache.runOp (LruCache.init cap) op = LruCache.init cap := by
  cases op with
  | put k v => simp [LruCache.runOp, LruCache.put, LruCache.init, hc]
  | get k => simp [LruCache.runOp, LruCache.getB, LruCache.init, lookupEntry]
  | remove k => simp [LruCache.runOp, LruCache.remove, LruCache.init, eraseKey]
  | purge => rfl

lemma lru_runOps_inert (cap : Int) (hc : cap ≤ 0) (ops : List (CacheOp K V)) :
    LruCache.runOps (LruCache.init cap) ops = LruCache.init cap := by
  induction ops with
  | nil => rfl
  | cons op rest ih =>
    unfold LruCache.runOps at ih ⊢
    rw [List.foldl_cons, lru_runOp_inert cap hc op]
    exact ih

lemma lfu_runOp_inert (maxAvg : Int) (op : CacheOp K V) :
    LfuCache.runOp (LfuCache.init 0 maxAvg) op = LfuCache.init 0 maxAvg := by
  cases op with
  | put k v => simp [LfuCache.runOp, LfuCache.put, LfuCache.init]
  | get k => simp [LfuCache.runOp, LfuCache.get, LfuCache.init, lookupNode]
  | remove k => rfl
  | purge => rfl

lemma lfu_runOps_inert (maxAvg : Int) (ops : List (CacheOp K V)) :
    LfuCache.runOps (LfuCache.init 0 maxAvg) ops = LfuCache.init 0 maxAvg := by
  induction ops with
  | nil => rfl
  | cons op rest ih =>
    unfold LfuCache.runOps at ih ⊢
    rw [List.foldl_cons, lfu_runOp_inert maxAvg op]
    exact ih

end C5Section

/-- C5 as amended: for `LruCache` any capacity ≤ 0 makes `put` the
identity, and every operation sequence from a fresh cache leaves it empty
with `get` always missing; for `LfuCache` the same holds at capacity
exactly 0 (its guard is `!capacity_`), and the ARC sub-caches reject `put`
at capacity 0; but an `LfuCache` with strictly negative capacity does
store entries (see the counterexample). -/
theorem c5_amended_theorem {K V : Type} [DecidableEq K] [Inhabited K] :
    (∀ (s : LruCache K V) (key : K) (v : V), s.capacity ≤ 0 → s.put key v = s) ∧
      (∀ (cap : Int), cap ≤ 0 → ∀ (ops : List (CacheOp K V)) (key : K),
        (LruCache.runOps (LruCache.init cap) ops).entries = [] ∧
          ((LruCache.runOps (LruCache.init cap) ops).getB key).1 = none) ∧
      (∀ (s : LfuCache K V) (key : K) (v : V), s.capacity = 0 → s.put key v = s) ∧
      (∀ (maxAvg : Int) (ops : List (CacheOp K V)) (key : K),
        (LfuCache.runOps (LfuCache.init 0 maxAvg) ops).nodeMap = [] ∧
          ((LfuCache.runOps (LfuCache.init 0 maxAvg) ops).get key).1 = none) ∧
      (∀ (s : ArcLruPart K V) (key : K) (v : V), s.capacity = 0 → s.put key v = (false, s)) ∧
      (∀ (s : ArcLfuPart K V) (key : K) (v : V), s.capacity = 0 → s.put key v = (false, s)) := by
  refine ⟨?_, ?_, ?_, ?_, ?_, ?_⟩
  · intro s key v hc
    simp [LruCache.put, hc]
  · intro cap hc ops key
    rw [lru_runOps_inert cap hc ops]
    exact ⟨rfl, by simp [LruCache.getB, LruCache.init, lookupEntry]⟩
  · intro s key v hc
    simp [LfuCache.put, hc]
  · intro maxAvg ops key
    rw [lfu_runOps_inert maxAvg ops]
    exact ⟨rfl, by simp [LfuCache.get, LfuCache.init, lookupNode]⟩
  · intro s key v hc
    simp [ArcLruPart.put, hc]
  · intro s key v hc
    simp [ArcLfuPart.put, hc]

/-- C5 witness: the amended theorem applied at concrete inputs — an LRU
cache of capacity −1 ignores `put(1,10)` and misses after any of the three
listed operation traces, an LFU cache of capacity 0 ignores `put` and
misses, and both ARC sub-parts reject `put` at capacity 0. -/
theorem c5_amended_witness :
    ((LruCache.init (-1) : LruCache Nat Nat).put 1 10 = LruCache.init (-1)) ∧
      ((LruCache.runOps (LruCache.init (-1) : LruCache Nat Nat)
          [CacheOp.put 1 10, CacheOp.get 1, CacheOp.put 2 20]).entries = [] ∧
        ((LruCache.runOps (LruCache.init (-1) : LruCache Nat Nat)
            [CacheOp.put 1 10, CacheOp.get 1, CacheOp.put 2 20]).getB 1).1 = none) ∧
      ((LfuCache.init 0 10 : LfuCache Nat Nat).put 1 10 = LfuCache.init 0 10) ∧
      ((LfuCache.runOps (LfuCache.init 0 10 : LfuCache Nat Nat)
          [CacheOp.put 1 10, CacheOp.get 1]).nodeMap = [] ∧
        ((LfuCache.runOps (LfuCache.init 0 10 : LfuCache Nat Nat)
            [CacheOp.put 1 10, CacheOp.get 1]).get 1).1 = none) ∧
      ((ArcLruPart.init 0 2 : ArcLruPart Nat Nat).put 1 10 = (false, ArcLruPart.init 0 2)) ∧
      ((ArcLfuPart.init 0 2 : ArcLfuPart Nat Nat).put 1 10 = (false, ArcLfuPart.init 0 2)) :=
  ⟨c5_amended_theorem.1 (LruCache.init (-1)) 1 10 (by decide),
    c5_amended_theorem.2.1 (-1) (by decide)
      [CacheOp.put 1 10, CacheOp.get 1, CacheOp.put 2 20] 1,
    c5_amended_theorem.2.2.1 (LfuCache.init 0 10) 1 10 (by decide),
    c5_amended_theorem.2.2.2.1 10 [CacheOp.put 1 10, CacheOp.get 1] 1,
    c5_amended_theorem.2.2.2.2.1 (ArcLruPart.init 0 2) 1 10 (by decide),
    c5_amended_theorem.2.2.2.2.2 (ArcLfuPart.init 0 2) 1 10 (by decide)⟩

section LfuValueLemmas

variable {K V : Type} [DecidableEq K] [Inhabited K]

lemma lookupNode_setNodeFreq_mapfst {C : Type} (m : List (K × V × C)) (k0 key : K) (f : C) :
    (lookupNode (setNodeFreq m k0 f) key).map Prod.fst
      = (lookupNode m key).map Prod.fst := by
  induction m with
  | nil => rfl
  | cons e rest ih =>
    obtain ⟨k, v, f0⟩ := e
    by_cases h1 : k = k0
    · subst h1
      rw [setNodeFreq, if_pos rfl]
      by_cases h2 : k = key
      · subst h2
        rw [lookupNode, if_pos rfl, lookupNode, if_pos rfl]
        rfl
      · rw [lookupNode, if_neg h2, lookupNode, if_neg h2]
    · rw [setNodeFreq, if_neg h1]
      by_cases h2 : k = key
      · subst h2
        rw [lookupNode, if_pos rfl, lookupNode, if_pos rfl]
      · rw [lookupNode, if_neg h2, lookupNode, if_neg h2]
        exact ih

lemma lookupNode_setNodeValue_self {C : Type} (m : List (K × V × C)) (key : K) (v v0 : V)
    (f : C) (h : lookupNode m key = some (v0, f)) :
    lookupNode (setNodeValue m key v) key = some (v, f) := by
  induction m with
  | nil => simp [lookupNode] at h
  | cons e rest ih =>
    obtain ⟨k, v1, f1⟩ := e
    by_cases hk : k = key
    · subst hk
      simp only [lookupNode, if_pos rfl] at h
      obtain ⟨rfl, rfl⟩ : v1 = v0 ∧ f1 = f := by
        constructor <;> injection h with h2 <;> simp_all
      simp [setNodeValue, lookupNode]
    · simp only [lookupNode, hk, ite_false] at h
      simp [setNodeValue, lookupNode, hk, ih h]

lemma lookupNode_append_left {C : Type} (m l2 : List (K × V × C)) (key : K)
    (h : lookupNode m key = none) :
    lookupNode (m ++ l2) key = lookupNode l2 key := by
  induction m with
  | nil => rfl
  | cons e rest ih =>
    obtain ⟨k, v, f⟩ := e
    by_cases hk : k = key
    · simp [lookupNode, hk] at h
    · simp only [lookupNode, hk, ite_false] at h
      simp [lookupNode, hk, ih h]

lemma lookupNode_eraseNode_none {C : Type} (m : List (K × V × C)) (k0 key : K)
    (h : lookupNode m key = none) :
    lookupNode (eraseNode m k0) key = none := by
  induction m with
  | nil => rfl
  | cons e rest ih =>
    obtain ⟨k, v, f⟩ := e
    by_cases hk : k = key
    · simp [lookupNode, hk] at h
    · simp only [lookupNode, hk, ite_false] at h
      by_cases h0 : k = k0
      · simpa [eraseNode, h0] using h
      · simp [eraseNode, h0, lookupNode, hk, ih h]

lemma lfu_sweepStep_mapfst (s : LfuCache K V) (k0 : K) (f : Int) (key : K) :
    (lookupNode ((s.sweepStep k0 f)).nodeMap key).map Prod.fst
      = (lookupNode s.nodeMap key).map Prod.fst := by
  unfold LfuCache.sweepStep LfuCache.removeFromFreqList LfuCache.addToFreqList
  simp only
  exact lookupNode_setNodeFreq_mapfst s.nodeMap k0 key _

lemma lfu_sweepList_mapfst (l : List (K × V × Int)) :
    ∀ (s : LfuCache K V) (key : K),
      (lookupNode ((LfuCache.sweepList l s)).nodeMap key).map Prod.fst
        = (lookupNode s.nodeMap key).map Prod.fst := by
  induction l with
  | nil => intro s key; rfl
  | cons e rest ih =>
    intro s key
    obtain ⟨k, v, f⟩ := e
    unfold LfuCache.sweepList
    rw [ih (s.sweepStep k f) key, lfu_sweepStep_mapfst]

lemma lfu_updateMinFreq_nodeMap (s : LfuCache K V) :
    ((s.updateMinFreq)).nodeMap = s.nodeMap := rfl

lemma lfu_handleOver_mapfst (s : LfuCache K V) (key : K) :
    (lookupNode ((s.handleOverMaxAvgNum)).nodeMap key).map Prod.fst
      = (lookupNode s.nodeMap key).map Prod.fst := by
  unfold LfuCache.handleOverMaxAvgNum
  split
  · rfl
  · rw [lfu_updateMinFreq_nodeMap, lfu_sweepList_mapfst]

lemma lfu_addFreqNum_mapfst (s : LfuCache K V) (key : K) :
    (lookupNode ((s.addFreqNum)).nodeMap key).map Prod.fst
      = (lookupNode s.nodeMap key).map Prod.fst := by
  simp only [LfuCache.addFreqNum]
  split <;> split <;>
    first
      | rw [lfu_handleOver_mapfst]
      | rfl

lemma lfu_getInternal_mapfst (s : LfuCache K V) (key0 : K) (v : V) (f : Int) (key : K) :
    (lookupNode ((s.getInternal key0 v f).2).nodeMap key).map Prod.fst
      = (lookupNode s.nodeMap key).map Prod.fst := by
  unfold LfuCache.getInternal
  simp only
  rw [lfu_addFreqNum_mapfst]
  split <;>
    exact lookupNode_setNodeFreq_mapfst s.nodeMap key0 key (f + 1)

lemma lfu_kickOut_none (s : LfuCache K V) (key : K)
    (h : lookupNode s.nodeMap key = none) :
    lookupNode ((s.kickOut)).nodeMap key = none := by
  unfold LfuCache.kickOut LfuCache.removeFromFreqList LfuCache.decreaseFreqNum
  split
  · simp only
    exact lookupNode_eraseNode_none s.nodeMap _ key h
  · simp only
    exact lookupNode_eraseNode_none s.nodeMap default key h

lemma lfu_get_fst (s : LfuCache K V) (key : K) :
    (s.get key).1 = (lookupNode s.nodeMap key).map Prod.fst := by
  unfold LfuCache.get
  cases h : lookupNode s.nodeMap key with
  | none => simp [h]
  | some p =>
    obtain ⟨v, f⟩ := p
    simp only [h]
    rfl

lemma lfu_put_mapfst (s : LfuCache K V) (key : K) (v : V) (hcap : ¬ s.capacity = 0) :
    (lookupNode ((s.put key v)).nodeMap key).map Prod.fst = some v := by
  unfold LfuCache.put
  simp only [hcap, ite_false]
  cases hl : lookupNode s.nodeMap key with
  | some p =>
    obtain ⟨v0, f⟩ := p
    simp only
    rw [lfu_getInternal_mapfst]
    simp only
    rw [lookupNode_setNodeValue_self s.nodeMap key v v0 f hl]
    rfl
  | none =>
    simp only
    unfold LfuCache.putInternal LfuCache.addToFreqList
    simp only [lfu_addFreqNum_mapfst]
    have h1 : lookupNode ((if s.nodeMap.length = usize s.capacity
        then s.kickOut else s)).nodeMap key = none := by
      split
      · exact lfu_kickOut_none s key hl
      · exact hl
    rw [lookupNode_append_left _ _ key h1]
    simp [lookupNode]

end LfuValueLemmas

section LruKLemmas

variable {K V : Type} [DecidableEq K] [Inhabited V]

lemma lru_getV_snd (s : LruCache K V) (key : K) :
    (LruCache.getV s key).2 = (s.getB key).2 := by
  unfold LruCache.getV
  rcases h : s.getB key with ⟨ov, s1⟩
  cases ov <;> simp [h]

lemma lru_getV_fst (s : LruCache K V) (key : K) :
    (LruCache.getV s key).1 = (lookupEntry s.entries key).getD default := by
  unfold LruCache.getV
  have hfst := lru_getB_fst s key
  rcases h : s.getB key with ⟨ov, s1⟩
  rw [h] at hfst
  cases ov <;> simp [h] <;> simp [← hfst]

lemma lruk_get_main_hit (s : LruKCache K V) (key : K) (v : V)
    (h : lookupEntry s.main.entries key = some v) : (s.get key).1 = v := by
  unfold LruKCache.get
  have hfst : (s.main.getB key).1 = some v := by rw [lru_getB_fst, h]
  simp only [hfst]

lemma usize_le_two (k : Int) (hk1 : 1 ≤ k) (hk2 : k ≤ 2) : usize k ≤ 2 := by
  have : k = 1 ∨ k = 2 := by omega
  rcases this with h | h <;> subst h <;> decide

lemma lruk_put_get (s : LruKCache K V) (key : K) (v : V)
    (hm : 0 < s.main.capacity) (hh : 0 < s.historyList.capacity)
    (hk1 : 1 ≤ s.k) (hk2 : s.k ≤ 2)
    (hnm : (keysOf s.main.entries).Nodup)
    (hnh : (keysOf s.historyList.entries).Nodup) :
    ((s.put key v).get key).1 = v := by
  unfold LruKCache.put
  cases hmain : lookupEntry s.main.entries key with
  | some v0 =>
    have hfst : (s.main.getB key).1 = some v0 := by rw [lru_getB_fst, hmain]
    simp only [hfst]
    exact lruk_get_main_hit _ key v
      (lru_put_lookup _ key v (by rw [lru_getB_capacity]; exact hm)
        (lru_getB_nodup _ key hnm))
  | none =>
    have hfst : (s.main.getB key).1 = none := by rw [lru_getB_fst, hmain]
    have hm2 : (s.main.getB key).2 = s.main := lru_getB_miss s.main key hmain
    simp only [hfst, hm2]
    by_cases hcount : (LruCache.getV s.historyList key).1 + 1 ≥ usize s.k
    · rw [if_pos hcount]
      exact lruk_get_main_hit _ key v (lru_put_lookup s.main key v hm hnm)
    · rw [if_neg hcount]
      -- the pending path: promotion happens inside the subsequent get
      unfold LruKCache.get
      simp only [hfst, hm2]
      have hhist2 : lookupEntry
          (((LruCache.getV s.historyList key).2.put key
            ((LruCache.getV s.historyList key).1 + 1))).entries key
          = some ((LruCache.getV s.historyList key).1 + 1) := by
        apply lru_put_lookup
        · rw [lru_getV_snd, lru_getB_capacity]
          exact hh
        · rw [lru_getV_snd]
          exact lru_getB_nodup s.historyList key hnh
      have hgetV2 : (LruCache.getV
          ((LruCache.getV s.historyList key).2.put key
            ((LruCache.getV s.historyList key).1 + 1)) key).1
          = (LruCache.getV s.historyList key).1 + 1 := by
        rw [lru_getV_fst, hhist2]
        rfl
      simp only [hgetV2]
      have husize : usize s.k ≤ 2 := usize_le_two s.k hk1 hk2
      have hge : (LruCache.getV s.historyList key).1 + 1 + 1 ≥ usize s.k := by omega
      rw [if_pos hge]
      simp only [lookupEntry_setEntry_self]

end LruKLemmas

/-- C1 as amended: immediately after `put(k,v)` a `get(k)` returns `v` for
the LRU cache (positive capacity, duplicate-free keys) and for the LFU
cache (positive capacity); for the LRU-K cache it holds when the promotion
threshold `k_` is at most 2 (with positive main and history capacities);
it fails for LRU-K with threshold ≥ 3 (the counterexample) and for ARC,
whose `get` never reports the LRU-resident entry because of the inverted
branch recorded in C3. -/
theorem c1_amended_theorem {K V : Type} [DecidableEq K] [Inhabited K] [Inhabited V] :
    (∀ (s : LruCache K V) (key : K) (v : V),
        0 < s.capacity → (keysOf s.entries).Nodup →
          ((s.put key v).getB key).1 = some v) ∧
      (∀ (s : LfuCache K V) (key : K) (v : V),
        0 < s.capacity → ((s.put key v).get key).1 = some v) ∧
      (∀ (s : LruKCache K V) (key : K) (v : V),
        0 < s.main.capacity → 0 < s.historyList.capacity →
          1 ≤ s.k → s.k ≤ 2 →
          (keysOf s.main.entries).Nodup → (keysOf s.historyList.entries).Nodup →
          ((s.put key v).get key).1 = v) := by
  refine ⟨?_, ?_, ?_⟩
  · intro s key v hcap hnd
    rw [lru_getB_fst]
    exact lru_put_lookup s key v hcap hnd
  · intro s key v hcap
    rw [lfu_get_fst]
    exact lfu_put_mapfst s key v (by omega)
  · intro s key v hm hh hk1 hk2 hnm hnh
    exact lruk_put_get s key v hm hh hk1 hk2 hnm hnh

/-- C1 witness: the amended theorem at concrete inputs — a fresh LRU cache
of capacity 2, a fresh LFU cache of capacity 2, and a fresh LRU-K cache
with threshold 2 all return the value just stored. -/
theorem c1_amended_witness :
    ((((LruCache.init 2 : LruCache Nat Nat).put 1 10).getB 1).1 = some 10) ∧
      ((((LfuCache.init 2 1000000 : LfuCache Nat Nat).put 1 10).get 1).1 = some 10) ∧
      ((((LruKCache.init 2 10 2 : LruKCache Nat Nat).put 1 10).get 1).1 = 10) :=
  ⟨c1_amended_theorem.1 (LruCache.init 2) 1 10 (by decide) (by decide),
    c1_amended_theorem.2.1 (LfuCache.init 2 1000000) 1 10 (by decide),
    c1_amended_theorem.2.2 (LruKCache.init 2 10 2) 1 10 (by decide) (by decide)
      (by decide) (by decide) (by decide) (by decide)⟩

/-- C9: when a `put(k,v)` of a key absent from the main cache raises that
key's history count to at least the threshold `k_`, the promotion happens
inside that same `put`: the value lands in the main cache, the history
entry and the pending value are erased, and an immediately following
`get(k)` hits the main cache and returns `v`. -/
theorem c9_promotion_on_put {K V : Type} [DecidableEq K] [Inhabited K] [Inhabited V] :
    ∀ (s : LruKCache K V) (key : K) (v : V),
      lookupEntry s.main.entries key = none →
      0 < s.main.capacity →
      (keysOf s.main.entries).Nodup →
      (keysOf s.historyList.entries).Nodup →
      (keysOf s.historyValueMap).Nodup →
      (LruCache.getV s.historyList key).1 + 1 ≥ usize s.k →
      lookupEntry ((s.put key v)).main.entries key = some v ∧
        lookupEntry ((s.put key v)).historyList.entries key = none ∧
        lookupEntry ((s.put key v)).historyValueMap key = none ∧
        ((s.put key v).get key).1 = v := by
  intro s key v habsent hm hnm hnh hnhv hcount
  have hfst : (s.main.getB key).1 = none := by rw [lru_getB_fst, habsent]
  have hm2 : (s.main.getB key).2 = s.main := lru_getB_miss s.main key habsent
  have hput : s.put key v =
      ⟨s.main.put key v,
        ((LruCache.getV s.historyList key).2.put key
          ((LruCache.getV s.historyList key).1 + 1)).remove key,
        eraseKey (setEntry s.historyValueMap key v) key, s.k⟩ := by
    unfold LruKCache.put
    simp only [hfst, hm2]
    rw [if_pos hcount]
  have hmainv : lookupEntry ((s.put key v)).main.entries key = some v := by
    rw [hput]
    exact lru_put_lookup s.main key v hm hnm
  have hnh2 : (keysOf (((LruCache.getV s.historyList key).2.put key
      ((LruCache.getV s.historyList key).1 + 1))).entries).Nodup := by
    apply lru_put_nodup
    rw [lru_getV_snd]
    exact lru_getB_nodup s.historyList key hnh
  refine ⟨hmainv, ?_, ?_, ?_⟩
  · rw [hput]
    exact lru_remove_lookup _ key hnh2
  · rw [hput]
    exact lookupEntry_eraseKey_self _ key
      (keysOf_setEntry_nodup s.historyValueMap key v hnhv)
  · exact lruk_get_main_hit _ key v hmainv

/-- C9 witness: on a fresh LRU-K cache with threshold 2, after `put(1,10)`
(history count 1) the next `put(1,20)` reaches the threshold and promotes:
key 1 is in the main cache with value 20, history and pending entries for
key 1 are gone, and `get(1)` returns 20. -/
theorem c9_promotion_witness :
    lookupEntry (((((LruKCache.init 2 10 2 : LruKCache Nat Nat).put 1 10)).put 1 20)).main.entries 1
        = some 20 ∧
      lookupEntry
          (((((LruKCache.init 2 10 2 : LruKCache Nat Nat).put 1 10)).put 1 20)).historyList.entries 1
        = none ∧
      lookupEntry
          (((((LruKCache.init 2 10 2 : LruKCache Nat Nat).put 1 10)).put 1 20)).historyValueMap 1
        = none ∧
      ((((((LruKCache.init 2 10 2 : LruKCache Nat Nat).put 1 10)).put 1 20)).get 1).1 = 20 :=
  c9_promotion_on_put ((LruKCache.init 2 10 2 : LruKCache Nat Nat).put 1 10) 1 20
    (by decide) (by decide) (by decide) (by decide) (by decide) (by decide)

section ArcCapLemmas

variable {K V : Type} [DecidableEq K] [Inhabited V]

lemma arclru_evict_capacity (s : ArcLruPart K V) :
    ((s.evictLeastRecent)).capacity = s.capacity := by
  unfold ArcLruPart.evictLeastRecent
  cases h : s.mainList.getLast? with
  | none => rfl
  | some e =>
    obtain ⟨k, v, c⟩ := e
    simp

lemma arclru_put_capacity (s : ArcLruPart K V) (key : K) (v : V) :
    (((s.put key v).2)).capacity = s.capacity := by
  unfold ArcLruPart.put
  by_cases h : s.capacity = 0
  · simp [h]
  · simp only [h, ite_false]
    cases hl : lookupNode s.mainList key with
    | some p =>
      obtain ⟨v0, c⟩ := p
      simp
    | none =>
      simp only
      split <;> simp [arclru_evict_capacity]

lemma arclru_checkGhost_capacity (s : ArcLruPart K V) (key : K) :
    (((s.checkGhost key).2)).capacity = s.capacity := by
  unfold ArcLruPart.checkGhost
  split <;> rfl

lemma arclru_decrease_spec (s : ArcLruPart K V) :
    (s.decreaseCapacity.1 = false ∧ s.decreaseCapacity.2 = s) ∨
      (s.decreaseCapacity.1 = true ∧ ((s.decreaseCapacity.2)).capacity = s.capacity - 1 ∧
        1 ≤ s.capacity) := by
  unfold ArcLruPart.decreaseCapacity
  by_cases h : s.capacity = 0
  · left
    simp [h]
  · right
    simp only [h, ite_false]
    refine ⟨by trivial, ?_, by omega⟩
    split <;> simp [arclru_evict_capacity]

lemma arclfu_updateFreq_capacity (s : ArcLfuPart K V) (key : K) (oldFreq : Nat) :
    ((s.updateNodeFrequency key oldFreq)).capacity = s.capacity := by
  unfold ArcLfuPart.updateNodeFrequency
  simp only
  split <;> rfl

lemma arclfu_evict_capacity (s : ArcLfuPart K V) :
    ((s.evictLeastFrequent)).capacity = s.capacity := by
  unfold ArcLfuPart.evictLeastFrequent
  split
  · rfl
  · split
    · rfl
    · simp only
      split <;> rfl

lemma arclfu_put_capacity (s : ArcLfuPart K V) (key : K) (v : V) :
    (((s.put key v).2)).capacity = s.capacity := by
  unfold ArcLfuPart.put
  by_cases h : s.capacity = 0
  · simp [h]
  · simp only [h, ite_false]
    cases hl : lookupNode s.mainMap key with
    | some p =>
      obtain ⟨v0, c⟩ := p
      simp [arclfu_updateFreq_capacity]
    | none =>
      simp only
      split <;> simp [arclfu_evict_capacity]

lemma arclfu_get_capacity (s : ArcLfuPart K V) (key : K) :
    (((s.get key).2)).capacity = s.capacity := by
  unfold ArcLfuPart.get
  cases hl : lookupNode s.mainMap key with
  | some p =>
    obtain ⟨v0, c⟩ := p
    simp [arclfu_updateFreq_capacity]
  | none => simp

lemma arclfu_checkGhost_capacity (s : ArcLfuPart K V) (key : K) :
    (((s.checkGhost key).2)).capacity = s.capacity := by
  unfold ArcLfuPart.checkGhost
  split <;> rfl

lemma arclfu_decrease_spec (s : ArcLfuPart K V) :
    (s.decreaseCapacity.1 = false ∧ s.decreaseCapacity.2 = s) ∨
      (s.decreaseCapacity.1 = true ∧ ((s.decreaseCapacity.2)).capacity = s.capacity - 1 ∧
        1 ≤ s.capacity) := by
  unfold ArcLfuPart.decreaseCapacity
  by_cases h : s.capacity = 0
  · left
    simp [h]
  · right
    simp only [h, ite_false]
    refine ⟨by trivial, ?_, by omega⟩
    split <;> simp [arclfu_evict_capacity]

lemma arc_checkGhost_capSum (s : ArcCache K V) (key : K) :
    (((s.checkGhostCaches key).2)).capSum = s.capSum := by
  unfold ArcCache.checkGhostCaches ArcCache.capSum
  by_cases h1 : (s.lruPart.checkGhost key).1
  · simp only [h1, ite_true]
    rcases arclfu_decrease_spec s.lfuPart with ⟨hf, he⟩ | ⟨ht, hcap, hge⟩
    · simp only [hf, Bool.false_eq_true, ite_false, he]
      rw [arclru_checkGhost_capacity]
    · simp only [ht, ite_true]
      unfold ArcLruPart.increaseCapacity
      simp only
      rw [arclru_checkGhost_capacity, hcap]
      omega
  · simp only [h1, Bool.false_eq_true, ite_false]
    by_cases h2 : (s.lfuPart.checkGhost key).1
    · simp only [h2, ite_true]
      rcases arclru_decrease_spec s.lruPart with ⟨hf, he⟩ | ⟨ht, hcap, hge⟩
      · simp only [hf, Bool.false_eq_true, ite_false, he]
        rw [arclfu_checkGhost_capacity]
      · simp only [ht, ite_true]
        unfold ArcLfuPart.increaseCapacity
        simp only
        rw [arclfu_checkGhost_capacity, hcap]
        omega
    · simp only [h2, Bool.false_eq_true, ite_false]

lemma arc_put_capSum (s : ArcCache K V) (key : K) (v : V) :
    ((s.put key v)).capSum = s.capSum := by
  unfold ArcCache.put
  simp only
  rw [← arc_checkGhost_capSum s key]
  set s1 := (s.checkGhostCaches key).2
  unfold ArcCache.capSum
  split <;> simp [arclru_put_capacity, arclfu_put_capacity]

lemma arclru_get_inv (s : ArcLruPart K V) (key : K) (t : Bool × Option V × Option Bool × ArcLruPart K V)
    (h : s.get key = some t) : t = (false, none, none, s) := by
  unfold ArcLruPart.get at h
  cases hl : lookupNode s.mainList key with
  | none => rw [hl] at h; exact absurd h (by simp)
  | some p => rw [hl] at h; injection h with h2; exact h2.symm

lemma arc_get_eq (s : ArcCache K V) (key : K) :
    s.get key =
      match ((s.checkGhostCaches key).2).lruPart.get key with
      | none => none
      | some _ =>
        some (((((s.checkGhostCaches key).2)).lfuPart.get key).1,
          { (s.checkGhostCaches key).2 with
              lfuPart := ((((s.checkGhostCaches key).2)).lfuPart.get key).2 }) := by
  unfold ArcCache.get
  cases hg : ((s.checkGhostCaches key).2).lruPart.get key with
  | none => simp [hg]
  | some t =>
    have ht := arclru_get_inv _ key t hg
    subst ht
    simp [hg]

lemma arc_get_capSum (s : ArcCache K V) (key : K) (r : Option V × ArcCache K V)
    (h : s.get key = some r) : (r.2).capSum = s.capSum := by
  rw [← arc_checkGhost_capSum s key]
  rw [arc_get_eq] at h
  cases hg : ((s.checkGhostCaches key).2).lruPart.get key with
  | none =>
    rw [hg] at h
    exact Option.noConfusion h
  | some t =>
    rw [hg] at h
    have h2 := Option.some.inj h
    rw [← h2]
    unfold ArcCache.capSum
    simp only
    rw [arclfu_get_capacity]

end ArcCapLemmas

/-- C7 as amended: for ARC with the sub-caches constructed as the spec
prescribes (each part gets main capacity c), `lru.capacity + lfu.capacity`
is preserved by every `put` and by every `get` that returns (the ghost-hit
adaptation increments one side only after the other side's
`decreaseCapacity` succeeded), and the capacities are `size_t` values,
hence never negative — but the conserved sum equals 2c, twice the
user-specified total, not c. -/
theorem c7_amended_theorem {K V : Type} [DecidableEq K] [Inhabited V] :
    (∀ cap thr : Nat, (ArcCache.init cap thr : ArcCache K V).capSum = cap + cap) ∧
      (∀ (s : ArcCache K V) (key : K) (v : V), ((s.put key v)).capSum = s.capSum) ∧
      (∀ (s : ArcCache K V) (key : K) (r : Option V × ArcCache K V),
        s.get key = some r → (r.2).capSum = s.capSum) := by
  refine ⟨?_, ?_, ?_⟩
  · intro cap thr
    rfl
  · intro s key v
    exact arc_put_capSum s key v
  · intro s key r h
    exact arc_get_capSum s key r h

/-- C7 witness: on the concrete ARC cache of total capacity 2 and
threshold 2, the initial sum is 4, a `put(1,10)` preserves it, and the
`get(1)` after that put (which is well defined) preserves it too. -/
theorem c7_amended_witness :
    ((ArcCache.init 2 2 : ArcCache Nat Nat).capSum = 2 + 2) ∧
      ((((ArcCache.init 2 2 : ArcCache Nat Nat).put 1 10)).capSum
        = (ArcCache.init 2 2 : ArcCache Nat Nat).capSum) ∧
      (∃ r, ((ArcCache.init 2 2 : ArcCache Nat Nat).put 1 10).get 1 = some r ∧
        (r.2).capSum = (((ArcCache.init 2 2 : ArcCache Nat Nat).put 1 10)).capSum) :=
  ⟨c7_amended_theorem.1 2 2,
    c7_amended_theorem.2.1 (ArcCache.init 2 2) 1 10,
    ⟨((((ArcCache.init 2 2 : ArcCache Nat Nat).put 1 10)).get 1).get (by decide),
      (Option.some_get (by decide)).symm,
      c7_amended_theorem.2.2 ((ArcCache.init 2 2 : ArcCache Nat Nat).put 1 10) 1 _
        (Option.some_get (by decide)).symm⟩⟩

section C8BucketLemmas

variable {K V : Type} [DecidableEq K] [Inhabited K]

lemma getBucket_setBucket_self (bs : List (Int × List K)) (f : Int) (l : List K) :
    getBucket (setBucket bs f l) f = l := by
  induction bs with
  | nil => simp [setBucket, getBucket]
  | cons p rest ih =>
    obtain ⟨f0, l0⟩ := p
    by_cases h : f0 = f <;> simp [setBucket, getBucket, h, ih]

lemma getBucket_setBucket_ne (bs : List (Int × List K)) (f f1 : Int) (l : List K)
    (h : f1 ≠ f) : getBucket (setBucket bs f l) f1 = getBucket bs f1 := by
  have h2 : ¬ f = f1 := fun hc => h hc.symm
  induction bs with
  | nil => simp [setBucket, getBucket, h2]
  | cons p rest ih =>
    obtain ⟨f0, l0⟩ := p
    by_cases h0 : f0 = f
    · subst h0
      simp [setBucket, getBucket, h2]
    · simp [setBucket, getBucket, h0, ih]

lemma setBucket_setBucket (bs : List (Int × List K)) (f : Int) (l l1 : List K) :
    setBucket (setBucket bs f l) f l1 = setBucket bs f l1 := by
  induction bs with
  | nil => simp [setBucket]
  | cons p rest ih =>
    obtain ⟨f0, l0⟩ := p
    by_cases h : f0 = f
    · subst h
      simp [setBucket]
    · simp [setBucket, h, ih]

lemma mapfst_setBucket (bs : List (Int × List K)) (f : Int) (l : List K) :
    (setBucket bs f l).map Prod.fst
      = if f ∈ bs.map Prod.fst then bs.map Prod.fst else bs.map Prod.fst ++ [f] := by
  induction bs with
  | nil => simp [setBucket]
  | cons p rest ih =>
    obtain ⟨f0, l0⟩ := p
    by_cases h : f0 = f
    · subst h
      simp [setBucket]
    · have : ¬ f = f0 := fun hc => h hc.symm
      simp only [setBucket, h, ite_false, List.map_cons, List.mem_cons, this, false_or]
      rw [ih]
      split <;> simp

lemma mapfst_setBucket_nodup (bs : List (Int × List K)) (f : Int) (l : List K)
    (h : (bs.map Prod.fst).Nodup) : ((setBucket bs f l).map Prod.fst).Nodup := by
  rw [mapfst_setBucket]
  split
  · exact h
  · next hni =>
    simp only [List.nodup_append, List.nodup_singleton]
    exact ⟨h, trivial, by
      intro a ha hmem
      simp only [List.mem_singleton] at hmem
      exact hni (hmem ▸ ha)⟩

lemma getBucket_eq_nil_of_not_mem (bs : List (Int × List K)) (f : Int)
    (h : f ∉ bs.map Prod.fst) : getBucket bs f = [] := by
  induction bs with
  | nil => rfl
  | cons p rest ih =>
    obtain ⟨f0, l0⟩ := p
    simp only [List.map_cons, List.mem_cons] at h
    push_neg at h
    rw [getBucket, if_neg (fun hc : f0 = f => h.1 hc.symm)]
    exact ih h.2

lemma getBucket_mem_or_nil (bs : List (Int × List K)) (f : Int) :
    getBucket bs f = [] ∨ (f, getBucket bs f) ∈ bs := by
  induction bs with
  | nil => exact Or.inl rfl
  | cons p rest ih =>
    obtain ⟨f0, l0⟩ := p
    by_cases h : f0 = f
    · subst h
      rw [getBucket, if_pos rfl]
      exact Or.inr (List.mem_cons_self _ _)
    · rw [getBucket, if_neg h]
      rcases ih with h2 | h2
      · exact Or.inl h2
      · exact Or.inr (List.mem_cons_of_mem _ h2)

lemma getBucket_of_mem (bs : List (Int × List K)) (p : Int × List K)
    (hnd : (bs.map Prod.fst).Nodup) (hp : p ∈ bs) : getBucket bs p.1 = p.2 := by
  induction bs with
  | nil => simp at hp
  | cons q rest ih =>
    obtain ⟨f0, l0⟩ := q
    simp only [List.map_cons, List.nodup_cons] at hnd
    rcases List.mem_cons.mp hp with h | h
    · subst h
      simp [getBucket]
    · by_cases hf : f0 = p.1
      · exfalso
        apply hnd.1
        rw [hf]
        exact List.mem_map_of_mem Prod.fst h
      · rw [getBucket, if_neg hf]
        exact ih hnd.2 h

lemma nonempty_freqs_iff (bs : List (Int × List K))
    (hb : (bs.map Prod.fst).Nodup) (f : Int) :
    f ∈ nonemptyBucketFreqs bs ↔ getBucket bs f ≠ [] := by
  constructor
  · intro h
    unfold nonemptyBucketFreqs at h
    rcases List.mem_map.mp h with ⟨p, hp, hfst⟩
    have hmem := List.mem_of_mem_filter hp
    have hne : p.2 ≠ [] := by
      have := List.of_mem_filter hp
      simpa [List.isEmpty_iff] using this
    rw [← hfst, getBucket_of_mem bs p hb hmem]
    exact hne
  · intro h
    rcases getBucket_mem_or_nil bs f with h2 | h2
    · exact absurd h2 h
    · unfold nonemptyBucketFreqs
      apply List.mem_map.mpr
      refine ⟨(f, getBucket bs f), ?_, rfl⟩
      apply List.mem_filter.mpr
      exact ⟨h2, by simpa [List.isEmpty_iff] using h⟩

end C8BucketLemmas

section C8NodeLemmas

variable {K V : Type} [DecidableEq K] [Inhabited K]

lemma pair_eq_fst {A B : Type} {a c : A} {b d : B} (h : (a, b) = (c, d)) : a = c :=
  congrArg Prod.fst h

lemma pair_eq_snd {A B : Type} {a c : A} {b d : B} (h : (a, b) = (c, d)) : b = d :=
  congrArg Prod.snd h

lemma eraseElem_eq_erase (l : List K) (a : K) : eraseElem l a = l.erase a := by
  induction l with
  | nil => rfl
  | cons b rest ih =>
    by_cases h : b = a
    · subst h
      simp [eraseElem, List.erase_cons]
    · simp [eraseElem, List.erase_cons, h, ih]

lemma keysWithFreq_mem (m : List (K × V × Int)) (f : Int) (k : K) :
    k ∈ keysWithFreq m f ↔ ∃ v, (k, v, f) ∈ m := by
  induction m with
  | nil => simp [keysWithFreq]
  | cons e rest ih =>
    obtain ⟨k0, v0, f0⟩ := e
    by_cases hf : f0 = f
    · subst hf
      rw [keysWithFreq, if_pos rfl]
      constructor
      · intro hmem
        rcases List.mem_cons.mp hmem with h | h
        · exact ⟨v0, by rw [h]; exact List.mem_cons_self _ _⟩
        · rcases ih.mp h with ⟨v, hv⟩
          exact ⟨v, List.mem_cons_of_mem _ hv⟩
      · rintro ⟨v, hv⟩
        rcases List.mem_cons.mp hv with heq | hv2
        · exact List.mem_cons.mpr (Or.inl (pair_eq_fst heq))
        · exact List.mem_cons.mpr (Or.inr (ih.mpr ⟨v, hv2⟩))
    · rw [keysWithFreq, if_neg hf, ih]
      constructor
      · rintro ⟨v, hv⟩
        exact ⟨v, List.mem_cons_of_mem _ hv⟩
      · rintro ⟨v, hv⟩
        rcases List.mem_cons.mp hv with heq | hv2
        · exact absurd (pair_eq_snd (pair_eq_snd heq)).symm hf
        · exact ⟨v, hv2⟩

lemma keysWithFreq_append_single (m : List (K × V × Int)) (k : K) (v : V) (f0 f : Int) :
    keysWithFreq (m ++ [(k, v, f0)]) f
      = keysWithFreq m f ++ (if f0 = f then [k] else []) := by
  induction m with
  | nil => simp [keysWithFreq]
  | cons e rest ih =>
    obtain ⟨k1, v1, f1⟩ := e
    by_cases hf : f1 = f <;> simp [keysWithFreq, hf, ih]

lemma keysWithFreq_setNodeValue (m : List (K × V × Int)) (k : K) (v : V) (f : Int) :
    keysWithFreq (setNodeValue m k v) f = keysWithFreq m f := by
  induction m with
  | nil => rfl
  | cons e rest ih =>
    obtain ⟨k1, v1, f1⟩ := e
    by_cases hk : k1 = k <;> by_cases hf : f1 = f <;>
      simp [setNodeValue, keysWithFreq, hk, hf, ih]

lemma setNodeFreq_same (m : List (K × V × Int)) (k : K) (v : V) (f : Int)
    (h : lookupNode m k = some (v, f)) : setNodeFreq m k f = m := by
  induction m with
  | nil => rfl
  | cons e rest ih =>
    obtain ⟨k1, v1, fe⟩ := e
    by_cases hk : k1 = k
    · rw [lookupNode, if_pos hk] at h
      have hfe : fe = f := pair_eq_snd (Option.some.inj h)
      rw [setNodeFreq, if_pos hk, hfe]
    · rw [lookupNode, if_neg hk] at h
      rw [setNodeFreq, if_neg hk, ih h]

lemma keysWithFreq_setNodeFreq_old (m : List (K × V × Int)) (k : K) (v : V) (f f1 : Int)
    (h : lookupNode m k = some (v, f)) (hne : ¬ f1 = f) :
    keysWithFreq (setNodeFreq m k f1) f = eraseElem (keysWithFreq m f) k := by
  induction m with
  | nil => rfl
  | cons e rest ih =>
    obtain ⟨k1, v1, fe⟩ := e
    by_cases hk : k1 = k
    · rw [lookupNode, if_pos hk] at h
      have hfe : fe = f := pair_eq_snd (Option.some.inj h)
      rw [setNodeFreq, if_pos hk, keysWithFreq, if_neg hne, keysWithFreq, if_pos hfe,
        eraseElem, if_pos hk]
    · rw [lookupNode, if_neg hk] at h
      rw [setNodeFreq, if_neg hk]
      by_cases hf : fe = f
      · rw [keysWithFreq, if_pos hf, keysWithFreq, if_pos hf, eraseElem, if_neg hk, ih h]
      · rw [keysWithFreq, if_neg hf, keysWithFreq, if_neg hf, ih h]

lemma keysWithFreq_setNodeFreq_new (m : List (K × V × Int)) (k : K) (v : V) (f f1 : Int)
    (h : lookupNode m k = some (v, f)) (hne : ¬ f1 = f) :
    List.Perm (keysWithFreq (setNodeFreq m k f1) f1) (keysWithFreq m f1 ++ [k]) := by
  induction m with
  | nil => simp [lookupNode] at h
  | cons e rest ih =>
    obtain ⟨k1, v1, fe⟩ := e
    by_cases hk : k1 = k
    · rw [lookupNode, if_pos hk] at h
      have hfe : fe = f := pair_eq_snd (Option.some.inj h)
      have hne2 : ¬ fe = f1 := by
        intro hc
        apply hne
        rw [← hfe, hc]
      rw [setNodeFreq, if_pos hk, keysWithFreq, if_pos rfl, keysWithFreq, if_neg hne2, hk]
      exact (List.perm_append_singleton k (keysWithFreq rest f1)).symm
    · rw [lookupNode, if_neg hk] at h
      rw [setNodeFreq, if_neg hk]
      by_cases hf : fe = f1
      · rw [keysWithFreq, if_pos hf, keysWithFreq, if_pos hf, List.cons_append]
        exact List.Perm.cons k1 (ih h)
      · rw [keysWithFreq, if_neg hf, keysWithFreq, if_neg hf]
        exact ih h

lemma keysWithFreq_setNodeFreq_other (m : List (K × V × Int)) (k : K) (v : V)
    (f0 f1 f : Int) (h : lookupNode m k = some (v, f0)) (h1 : ¬ f = f0) (h2 : ¬ f = f1) :
    keysWithFreq (setNodeFreq m k f1) f = keysWithFreq m f := by
  induction m with
  | nil => rfl
  | cons e rest ih =>
    obtain ⟨k1, v1, fe⟩ := e
    by_cases hk : k1 = k
    · rw [lookupNode, if_pos hk] at h
      have hfe : fe = f0 := pair_eq_snd (Option.some.inj h)
      rw [setNodeFreq, if_pos hk, keysWithFreq, if_neg (fun hc : f1 = f => h2 hc.symm),
        keysWithFreq, if_neg (fun hc : fe = f => h1 (by rw [← hc]; exact hfe))]
    · rw [lookupNode, if_neg hk] at h
      rw [setNodeFreq, if_neg hk]
      by_cases hf : fe = f
      · rw [keysWithFreq, if_pos hf, keysWithFreq, if_pos hf, ih h]
      · rw [keysWithFreq, if_neg hf, keysWithFreq, if_neg hf, ih h]

lemma keysWithFreq_eraseNode_self (m : List (K × V × Int)) (k : K) (v : V) (f : Int)
    (h : lookupNode m k = some (v, f)) :
    keysWithFreq (eraseNode m k) f = eraseElem (keysWithFreq m f) k := by
  induction m with
  | nil => rfl
  | cons e rest ih =>
    obtain ⟨k1, v1, fe⟩ := e
    by_cases hk : k1 = k
    · rw [lookupNode, if_pos hk] at h
      have hfe : fe = f := pair_eq_snd (Option.some.inj h)
      rw [eraseNode, if_pos hk, keysWithFreq, if_pos hfe, eraseElem, if_pos hk]
    · rw [lookupNode, if_neg hk] at h
      rw [eraseNode, if_neg hk]
      by_cases hf : fe = f
      · rw [keysWithFreq, if_pos hf, keysWithFreq, if_pos hf, eraseElem, if_neg hk, ih h]
      · rw [keysWithFreq, if_neg hf, keysWithFreq, if_neg hf, ih h]

lemma keysWithFreq_eraseNode_other (m : List (K × V × Int)) (k : K) (v : V)
    (f0 f : Int) (h : lookupNode m k = some (v, f0)) (hne : ¬ f = f0) :
    keysWithFreq (eraseNode m k) f = keysWithFreq m f := by
  induction m with
  | nil => rfl
  | cons e rest ih =>
    obtain ⟨k1, v1, fe⟩ := e
    by_cases hk : k1 = k
    · rw [lookupNode, if_pos hk] at h
      have hfe : fe = f0 := pair_eq_snd (Option.some.inj h)
      rw [eraseNode, if_pos hk, keysWithFreq,
        if_neg (fun hc : fe = f => hne (by rw [← hc]; exact hfe))]
    · rw [lookupNode, if_neg hk] at h
      rw [eraseNode, if_neg hk]
      by_cases hf : fe = f
      · rw [keysWithFreq, if_pos hf, keysWithFreq, if_pos hf, ih h]
      · rw [keysWithFreq, if_neg hf, keysWithFreq, if_neg hf, ih h]

lemma lookupNode_of_mem_nodup (m : List (K × V × Int)) (k : K) (v : V) (f : Int)
    (hnd : (nodeKeys m).Nodup) (hm : (k, v, f) ∈ m) :
    lookupNode m k = some (v, f) := by
  induction m with
  | nil => simp at hm
  | cons e rest ih =>
    obtain ⟨k1, v1, f1⟩ := e
    simp only [nodeKeys, List.map_cons, List.nodup_cons] at hnd
    rcases List.mem_cons.mp hm with heq | h
    · have hk : k = k1 := pair_eq_fst heq
      have hv : v = v1 := pair_eq_fst (pair_eq_snd heq)
      have hf : f = f1 := pair_eq_snd (pair_eq_snd heq)
      rw [lookupNode, if_pos hk.symm, hv, hf]
    · by_cases hk : k1 = k
      · exfalso
        apply hnd.1
        rw [hk]
        exact List.mem_map_of_mem Prod.fst h
      · rw [lookupNode, if_neg hk]
        exact ih hnd.2 h

lemma nodeKeys_setNodeFreq (m : List (K × V × Int)) (k : K) (f : Int) :
    nodeKeys (setNodeFreq m k f) = nodeKeys m := by
  induction m with
  | nil => rfl
  | cons e rest ih =>
    obtain ⟨k1, v1, f1⟩ := e
    by_cases hk : k1 = k
    · rw [setNodeFreq, if_pos hk]
      rfl
    · rw [setNodeFreq, if_neg hk]
      simp only [nodeKeys, List.map_cons]
      rw [show List.map Prod.fst (setNodeFreq rest k f) = nodeKeys (setNodeFreq rest k f) from rfl,
        ih]
      rfl

lemma nodeKeys_setNodeValue (m : List (K × V × Int)) (k : K) (v : V) :
    nodeKeys (setNodeValue m k v) = nodeKeys m := by
  induction m with
  | nil => rfl
  | cons e rest ih =>
    obtain ⟨k1, v1, f1⟩ := e
    by_cases hk : k1 = k
    · rw [setNodeValue, if_pos hk]
      simp [nodeKeys, hk]
    · rw [setNodeValue, if_neg hk]
      simp only [nodeKeys, List.map_cons]
      rw [show List.map Prod.fst (setNodeValue rest k v) = nodeKeys (setNodeValue rest k v) from rfl,
        ih]
      rfl

lemma nodeKeys_eraseNode_sublist (m : List (K × V × Int)) (k : K) :
    (nodeKeys (eraseNode m k)).Sublist (nodeKeys m) := by
  induction m with
  | nil => simp [eraseNode, nodeKeys]
  | cons e rest ih =>
    obtain ⟨k1, v1, f1⟩ := e
    by_cases hk : k1 = k
    · rw [eraseNode, if_pos hk]
      exact List.sublist_cons_self _ _
    · rw [eraseNode, if_neg hk]
      simpa [nodeKeys] using List.Sublist.cons₂ k1 ih

lemma lookupNode_setNodeFreq_self (m : List (K × V × Int)) (k : K) (v : V) (f f1 : Int)
    (h : lookupNode m k = some (v, f)) :
    lookupNode (setNodeFreq m k f1) k = some (v, f1) := by
  induction m with
  | nil => simp [lookupNode] at h
  | cons e rest ih =>
    obtain ⟨k1, v1, fe⟩ := e
    by_cases hk : k1 = k
    · rw [lookupNode, if_pos hk] at h
      have hv : v1 = v := pair_eq_fst (Option.some.inj h)
      rw [setNodeFreq, if_pos hk, lookupNode, if_pos hk, hv]
    · rw [lookupNode, if_neg hk] at h
      rw [setNodeFreq, if_neg hk, lookupNode, if_neg hk]
      exact ih h

lemma lookupNode_setNodeFreq_other (m : List (K × V × Int)) (k k1 : K) (f1 : Int)
    (h : ¬ k = k1) : lookupNode (setNodeFreq m k1 f1) k = lookupNode m k := by
  induction m with
  | nil => rfl
  | cons e rest ih =>
    obtain ⟨k2, v2, f2⟩ := e
    by_cases hk : k2 = k1
    · have hk2 : ¬ k2 = k := by
        intro hc
        apply h
        rw [← hc, hk]
      rw [setNodeFreq, if_pos hk, lookupNode, if_neg hk2, lookupNode, if_neg hk2]
    · rw [setNodeFreq, if_neg hk]
      by_cases hk2 : k2 = k
      · rw [lookupNode, if_pos hk2, lookupNode, if_pos hk2]
      · rw [lookupNode, if_neg hk2, lookupNode, if_neg hk2, ih]

lemma mem_setNodeFreq_other (m : List (K × V × Int)) (k1 : K) (f1 : Int)
    (a : K) (b : V) (c : Int) (h : ¬ a = k1) (hm : (a, b, c) ∈ m) :
    (a, b, c) ∈ setNodeFreq m k1 f1 := by
  induction m with
  | nil => simp at hm
  | cons e2 rest ih =>
    obtain ⟨k2, v2, f2⟩ := e2
    by_cases hk : k2 = k1
    · rw [setNodeFreq, if_pos hk]
      rcases List.mem_cons.mp hm with heq | h2
      · exact absurd ((pair_eq_fst heq).trans hk) h
      · exact List.mem_cons_of_mem _ h2
    · rw [setNodeFreq, if_neg hk]
      rcases List.mem_cons.mp hm with heq | h2
      · rw [heq]
        exact List.mem_cons_self _ _
      · exact List.mem_cons_of_mem _ (ih h2)

lemma lookupNode_eq_none_iff (m : List (K × V × Int)) (k : K) :
    lookupNode m k = none ↔ k ∉ nodeKeys m := by
  induction m with
  | nil => simp [lookupNode, nodeKeys]
  | cons e rest ih =>
    obtain ⟨k1, v1, f1⟩ := e
    by_cases hk : k1 = k
    · subst hk
      simp [lookupNode, nodeKeys]
    · have hk2 : ¬ k = k1 := fun hc => hk hc.symm
      rw [lookupNode, if_neg hk, ih]
      simp [nodeKeys, hk2]

end C8NodeLemmas

section C8CompositeLemmas

variable {K V : Type} [DecidableEq K] [Inhabited K]

lemma mem_of_lookupNode (m : List (K × V × Int)) (k : K) (v : V) (f : Int)
    (h : lookupNode m k = some (v, f)) : (k, v, f) ∈ m := by
  induction m with
  | nil => simp [lookupNode] at h
  | cons e rest ih =>
    obtain ⟨k1, v1, fe⟩ := e
    by_cases hk : k1 = k
    · rw [lookupNode, if_pos hk] at h
      have hv : v1 = v := pair_eq_fst (Option.some.inj h)
      have hf : fe = f := pair_eq_snd (Option.some.inj h)
      rw [← hk, ← hv, ← hf]
      exact List.mem_cons_self _ _
    · rw [lookupNode, if_neg hk] at h
      exact List.mem_cons_of_mem _ (ih h)

lemma mem_setNodeFreq_rev (m : List (K × V × Int)) (k1 : K) (f1 : Int)
    (a : K) (b : V) (c : Int) (h : ¬ a = k1) (hm : (a, b, c) ∈ setNodeFreq m k1 f1) :
    (a, b, c) ∈ m := by
  induction m with
  | nil => simpa [setNodeFreq] using hm
  | cons e2 rest ih =>
    obtain ⟨k2, v2, f2⟩ := e2
    by_cases hk : k2 = k1
    · rw [setNodeFreq, if_pos hk] at hm
      rcases List.mem_cons.mp hm with heq | h2
      · exact absurd ((pair_eq_fst heq).trans hk) h
      · exact List.mem_cons_of_mem _ h2
    · rw [setNodeFreq, if_neg hk] at hm
      rcases List.mem_cons.mp hm with heq | h2
      · rw [heq]
        exact List.mem_cons_self _ _
      · exact List.mem_cons_of_mem _ (ih h2)

lemma perm_ne_nil {A : Type} {l l2 : List A} (h : List.Perm l l2) : l ≠ [] ↔ l2 ≠ [] := by
  have hl := h.length_eq
  constructor
  · intro h2 h3
    rw [h3] at hl
    simp only [List.length_nil] at hl
    exact h2 (List.length_eq_zero.mp hl)
  · intro h2 h3
    rw [h3] at hl
    simp only [List.length_nil] at hl
    exact h2 (List.length_eq_zero.mp hl.symm)

lemma bucketAgree_of_inv (s : LfuCache K V) (h : s.inv) :
    BucketAgree s.nodeMap s.buckets := by
  obtain ⟨ha, hb, hpair, hcov, hfreq, hm1, hmo⟩ := h
  intro f
  by_cases hf : f ∈ s.buckets.map Prod.fst
  · rcases List.mem_map.mp hf with ⟨p, hp, hfst⟩
    rw [← hfst, getBucket_of_mem s.buckets p hb hp]
    exact hpair p hp
  · rw [getBucket_eq_nil_of_not_mem s.buckets f hf]
    have : keysWithFreq s.nodeMap f = [] := by
      rw [List.eq_nil_iff_forall_not_mem]
      intro k hk
      rcases (keysWithFreq_mem s.nodeMap f k).mp hk with ⟨v, hv⟩
      exact hf (hcov (k, v, f) hv)
    rw [this]

lemma lfuAux_of_inv (s : LfuCache K V) (h : s.inv) : LfuAux s :=
  ⟨h.1, h.2.1, bucketAgree_of_inv s h, h.2.2.2.2.1⟩

lemma minOkG_of_inv (s : LfuCache K V) (h : s.inv) : MinOkG s := by
  obtain ⟨ha, hb, hpair, hcov, hfreq, hm1, hmo⟩ := h
  intro hne
  obtain ⟨hmem, hall⟩ := hmo hne
  refine ⟨(nonempty_freqs_iff s.buckets hb s.minFreq).mp hmem, ?_⟩
  intro f hf
  exact hall f ((nonempty_freqs_iff s.buckets hb f).mpr hf)

lemma inv_of_parts (s : LfuCache K V) (haux : LfuAux s) (hm1 : 1 ≤ s.minFreq)
    (hmo : MinOkG s) : s.inv := by
  obtain ⟨ha, hb, hC, hfreq⟩ := haux
  refine ⟨ha, hb, ?_, ?_, hfreq, hm1, ?_⟩
  · intro p hp
    rw [← getBucket_of_mem s.buckets p hb hp]
    exact hC p.1
  · intro e he
    have hk : e.1 ∈ keysWithFreq s.nodeMap e.2.2 := by
      rcases e with ⟨a, b, c⟩
      exact (keysWithFreq_mem s.nodeMap c a).mpr ⟨b, he⟩
    have hne : getBucket s.buckets e.2.2 ≠ [] := by
      rw [perm_ne_nil (hC e.2.2)]
      intro hnil
      rw [hnil] at hk
      simp at hk
    rcases getBucket_mem_or_nil s.buckets e.2.2 with h2 | h2
    · exact absurd h2 hne
    · exact List.mem_map_of_mem Prod.fst h2
  · intro hne
    obtain ⟨hmem, hall⟩ := hmo hne
    refine ⟨(nonempty_freqs_iff s.buckets hb s.minFreq).mpr hmem, ?_⟩
    intro f hf
    exact hall f ((nonempty_freqs_iff s.buckets hb f).mp hf)

lemma move_aux (m : List (K × V × Int)) (B : List (Int × List K)) (k : K) (v : V)
    (f f1 : Int) (ha : (nodeKeys m).Nodup) (hb : (B.map Prod.fst).Nodup)
    (hC : BucketAgree m B) (hlk : lookupNode m k = some (v, f)) :
    (nodeKeys (setNodeFreq m k f1)).Nodup ∧
      (((setBucket (setBucket B f (eraseElem (getBucket B f) k)) f1
          (getBucket (setBucket B f (eraseElem (getBucket B f) k)) f1 ++ [k])).map
          Prod.fst)).Nodup ∧
      BucketAgree (setNodeFreq m k f1)
        (setBucket (setBucket B f (eraseElem (getBucket B f) k)) f1
          (getBucket (setBucket B f (eraseElem (getBucket B f) k)) f1 ++ [k])) := by
  have hkmem : k ∈ keysWithFreq m f :=
    (keysWithFreq_mem m f k).mpr ⟨v, mem_of_lookupNode m k v f hlk⟩
  have hkB : k ∈ getBucket B f := (hC f).mem_iff.mpr hkmem
  refine ⟨by rw [nodeKeys_setNodeFreq]; exact ha,
    mapfst_setBucket_nodup _ _ _ (mapfst_setBucket_nodup _ _ _ hb), ?_⟩
  intro f2
  by_cases hf1 : f1 = f
  · subst hf1
    rw [setNodeFreq_same m k v f1 hlk, getBucket_setBucket_self, setBucket_setBucket]
    by_cases h2 : f2 = f1
    · subst h2
      rw [getBucket_setBucket_self]
      refine List.Perm.trans ?_ (hC f2)
      refine List.Perm.trans (List.perm_append_singleton _ _) ?_
      rw [eraseElem_eq_erase]
      exact (List.perm_cons_erase hkB).symm
    · rw [getBucket_setBucket_ne _ _ _ _ h2]
      exact hC f2
  · by_cases h2 : f2 = f1
    · subst h2
      rw [getBucket_setBucket_self, getBucket_setBucket_ne _ _ _ _ hf1]
      exact ((hC f2).append_right [k]).trans
        (keysWithFreq_setNodeFreq_new m k v f f2 hlk hf1).symm
    · by_cases h3 : f2 = f
      · subst h3
        rw [getBucket_setBucket_ne _ _ _ _ h2, getBucket_setBucket_self,
          keysWithFreq_setNodeFreq_old m k v f2 f1 hlk (fun hc : f1 = f2 => hf1 hc),
          eraseElem_eq_erase, eraseElem_eq_erase]
        exact List.Perm.erase k (hC f2)
      · rw [getBucket_setBucket_ne _ _ _ _ h2, getBucket_setBucket_ne _ _ _ _ h3,
          keysWithFreq_setNodeFreq_other m k v f f1 f2 hlk h3 h2]
        exact hC f2

lemma insert_aux (m : List (K × V × Int)) (B : List (Int × List K)) (k : K) (v : V)
    (ha : (nodeKeys m).Nodup) (hb : (B.map Prod.fst).Nodup)
    (hC : BucketAgree m B) (habs : lookupNode m k = none) :
    (nodeKeys (m ++ [(k, v, 1)])).Nodup ∧
      (((setBucket B 1 (getBucket B 1 ++ [k])).map Prod.fst)).Nodup ∧
      BucketAgree (m ++ [(k, v, 1)]) (setBucket B 1 (getBucket B 1 ++ [k])) := by
  have hnot : k ∉ nodeKeys m := (lookupNode_eq_none_iff m k).mp habs
  refine ⟨?_, mapfst_setBucket_nodup _ _ _ hb, ?_⟩
  · unfold nodeKeys
    rw [List.map_append]
    simp only [List.map_cons, List.map_nil]
    rw [List.nodup_append]
    exact ⟨ha, List.nodup_singleton k, by
      intro a haa hmem
      simp only [List.mem_singleton] at hmem
      exact hnot (hmem ▸ haa)⟩
  · intro f2
    by_cases h2 : f2 = 1
    · subst h2
      rw [getBucket_setBucket_self, keysWithFreq_append_single, if_pos rfl]
      exact (hC 1).append_right [k]
    · rw [getBucket_setBucket_ne _ _ _ _ h2, keysWithFreq_append_single,
        if_neg (fun hc : (1 : Int) = f2 => h2 hc.symm), List.append_nil]
      exact hC f2

lemma erase_aux (m : List (K × V × Int)) (B : List (Int × List K)) (k : K) (v : V)
    (f : Int) (ha : (nodeKeys m).Nodup) (hb : (B.map Prod.fst).Nodup)
    (hC : BucketAgree m B) (hlk : lookupNode m k = some (v, f)) :
    (nodeKeys (eraseNode m k)).Nodup ∧
      (((setBucket B f (eraseElem (getBucket B f) k)).map Prod.fst)).Nodup ∧
      BucketAgree (eraseNode m k) (setBucket B f (eraseElem (getBucket B f) k)) := by
  refine ⟨List.Nodup.sublist (nodeKeys_eraseNode_sublist m k) ha,
    mapfst_setBucket_nodup _ _ _ hb, ?_⟩
  intro f2
  by_cases h2 : f2 = f
  · subst h2
    rw [getBucket_setBucket_self, keysWithFreq_eraseNode_self m k v f2 hlk,
      eraseElem_eq_erase, eraseElem_eq_erase]
    exact List.Perm.erase k (hC f2)
  · rw [getBucket_setBucket_ne _ _ _ _ h2,
      keysWithFreq_eraseNode_other m k v f f2 hlk h2]
    exact hC f2

end C8CompositeLemmas

section C8SweepLemmas

variable {K V : Type} [DecidableEq K] [Inhabited K]

lemma lfuCompress_ge_one (d f : Int) : 1 ≤ lfuCompress d f := by
  unfold lfuCompress
  split <;> omega

lemma mem_setNodeFreq_cases (m : List (K × V × Int)) (k1 : K) (f1 : Int)
    (e : K × V × Int) (hm : e ∈ setNodeFreq m k1 f1) : e ∈ m ∨ e.2.2 = f1 := by
  induction m with
  | nil => simpa [setNodeFreq] using hm
  | cons e2 rest ih =>
    obtain ⟨k2, v2, f2⟩ := e2
    by_cases hk : k2 = k1
    · rw [setNodeFreq, if_pos hk] at hm
      rcases List.mem_cons.mp hm with heq | h2
      · right
        rw [heq]
      · exact Or.inl (List.mem_cons_of_mem _ h2)
    · rw [setNodeFreq, if_neg hk] at hm
      rcases List.mem_cons.mp hm with heq | h2
      · exact Or.inl (heq ▸ List.mem_cons_self _ _)
      · rcases ih h2 with h3 | h3
        · exact Or.inl (List.mem_cons_of_mem _ h3)
        · exact Or.inr h3

lemma lfu_sweepStep_state (s : LfuCache K V) (k : K) (f : Int) :
    s.sweepStep k f =
      { s with
          nodeMap := setNodeFreq s.nodeMap k (lfuCompress s.maxAvgNum f)
          buckets :=
            setBucket (setBucket s.buckets f (eraseElem (getBucket s.buckets f) k))
              (lfuCompress s.maxAvgNum f)
              (getBucket (setBucket s.buckets f (eraseElem (getBucket s.buckets f) k))
                (lfuCompress s.maxAvgNum f) ++ [k]) } := by
  unfold LfuCache.sweepStep LfuCache.removeFromFreqList LfuCache.addToFreqList lfuCompress
  rfl

lemma lfu_sweepList_spec (l : List (K × V × Int)) :
    ∀ (s : LfuCache K V),
      (nodeKeys s.nodeMap).Nodup → (s.buckets.map Prod.fst).Nodup →
      BucketAgree s.nodeMap s.buckets →
      (∀ e ∈ s.nodeMap, 1 ≤ e.2.2) →
      (nodeKeys l).Nodup →
      (∀ e ∈ l, e ∈ s.nodeMap) →
      (nodeKeys (LfuCache.sweepList l s).nodeMap).Nodup ∧
        ((LfuCache.sweepList l s).buckets.map Prod.fst).Nodup ∧
        BucketAgree (LfuCache.sweepList l s).nodeMap (LfuCache.sweepList l s).buckets ∧
        (∀ e ∈ (LfuCache.sweepList l s).nodeMap, 1 ≤ e.2.2) ∧
        (LfuCache.sweepList l s).maxAvgNum = s.maxAvgNum ∧
        (LfuCache.sweepList l s).minFreq = s.minFreq ∧
        (∀ k2, k2 ∉ nodeKeys l →
          lookupNode (LfuCache.sweepList l s).nodeMap k2 = lookupNode s.nodeMap k2) ∧
        (∀ e ∈ l, ∃ v2, lookupNode (LfuCache.sweepList l s).nodeMap e.1
          = some (v2, lfuCompress s.maxAvgNum e.2.2)) := by
  induction l with
  | nil =>
    intro s ha hb hC hfp _ _
    exact ⟨ha, hb, hC, hfp, rfl, rfl, fun k2 _ => rfl, by simp⟩
  | cons e rest ih =>
    intro s ha hb hC hfp hnl hel
    obtain ⟨k, v, f⟩ := e
    have hkl : lookupNode s.nodeMap k = some (v, f) :=
      lookupNode_of_mem_nodup s.nodeMap k v f ha (hel _ (List.mem_cons_self _ _))
    have hmove := move_aux s.nodeMap s.buckets k v f (lfuCompress s.maxAvgNum f) ha hb hC hkl
    have hstep := lfu_sweepStep_state s k f
    have hnl2 : (k :: nodeKeys rest).Nodup := by simpa [nodeKeys] using hnl
    have hrest_nodup : (nodeKeys rest).Nodup := (List.nodup_cons.mp hnl2).2
    have hknotin : k ∉ nodeKeys rest := (List.nodup_cons.mp hnl2).1
    have hfp2 : ∀ e2 ∈ (s.sweepStep k f).nodeMap, 1 ≤ e2.2.2 := by
      intro e2 he2
      rw [hstep] at he2
      simp only at he2
      rcases mem_setNodeFreq_cases s.nodeMap k (lfuCompress s.maxAvgNum f) e2 he2 with h2 | h2
      · exact hfp e2 h2
      · rw [h2]
        exact lfuCompress_ge_one _ _
    have hmem2 : ∀ e2 ∈ rest, e2 ∈ (s.sweepStep k f).nodeMap := by
      intro e2 he2
      rw [hstep]
      simp only
      obtain ⟨a, b, c⟩ := e2
      apply mem_setNodeFreq_other
      · intro hc
        apply hknotin
        rw [← hc]
        exact List.mem_map_of_mem Prod.fst he2
      · exact hel _ (List.mem_cons_of_mem _ he2)
    have haux1 : (nodeKeys (s.sweepStep k f).nodeMap).Nodup := by
      rw [hstep]; exact hmove.1
    have haux2 : ((s.sweepStep k f).buckets.map Prod.fst).Nodup := by
      rw [hstep]; exact hmove.2.1
    have haux3 : BucketAgree (s.sweepStep k f).nodeMap (s.sweepStep k f).buckets := by
      rw [hstep]; exact hmove.2.2
    obtain ⟨ih1, ih2, ih3, ih4, ih5, ih6, ih7, ih8⟩ :=
      ih (s.sweepStep k f) haux1 haux2 haux3 hfp2 hrest_nodup hmem2
    have hmax : (s.sweepStep k f).maxAvgNum = s.maxAvgNum := by rw [hstep]
    have hmin : (s.sweepStep k f).minFreq = s.minFreq := by rw [hstep]
    have hsl : LfuCache.sweepList ((k, v, f) :: rest) s
        = LfuCache.sweepList rest (s.sweepStep k f) := rfl
    have hlkother : ∀ k2, ¬ k2 = k →
        lookupNode (s.sweepStep k f).nodeMap k2 = lookupNode s.nodeMap k2 := by
      intro k2 hk2
      rw [hstep]
      simp only
      exact lookupNode_setNodeFreq_other s.nodeMap k2 k _ hk2
    refine ⟨by rw [hsl]; exact ih1, by rw [hsl]; exact ih2, by rw [hsl]; exact ih3,
      by rw [hsl]; exact ih4, by rw [hsl, ih5, hmax], by rw [hsl, ih6, hmin], ?_, ?_⟩
    · intro k2 hk2
      have hk2r : k2 ∉ nodeKeys rest := by
        intro hc
        exact hk2 (by simp [nodeKeys]; exact Or.inr (by simpa [nodeKeys] using hc))
      have hk2k : ¬ k2 = k := by
        intro hc
        exact hk2 (by simp [nodeKeys, hc])
      rw [hsl, ih7 k2 hk2r, hlkother k2 hk2k]
    · intro e2 he2
      rcases List.mem_cons.mp he2 with heq | h2
      · rw [hsl, heq]
        simp only
        rw [ih7 k hknotin]
        have : lookupNode (s.sweepStep k f).nodeMap k
            = some (v, lfuCompress s.maxAvgNum f) := by
          rw [hstep]
          simp only
          exact lookupNode_setNodeFreq_self s.nodeMap k v f _ hkl
        rw [this]
        exact ⟨v, rfl⟩
      · rcases ih8 e2 h2 with ⟨v2, hv2⟩
        rw [hmax] at hv2
        exact ⟨v2, by rw [hsl]; exact hv2⟩

end C8SweepLemmas

section C8MinFreqLemmas

variable {K V : Type} [DecidableEq K] [Inhabited K]

lemma nonemptyFreqs_cons (f0 : Int) (l0 : List K) (rest : List (Int × List K)) :
    nonemptyBucketFreqs ((f0, l0) :: rest)
      = if l0 = [] then nonemptyBucketFreqs rest else f0 :: nonemptyBucketFreqs rest := by
  unfold nonemptyBucketFreqs
  by_cases h : l0 = [] <;> simp [h, List.filter_cons]

lemma umfFold_spec (bs : List (Int × List K)) : ∀ acc : Int,
    umfFold bs acc ≤ acc ∧
      (umfFold bs acc = acc ∨ umfFold bs acc ∈ nonemptyBucketFreqs bs) ∧
      (∀ f ∈ nonemptyBucketFreqs bs, umfFold bs acc ≤ f) := by
  induction bs with
  | nil =>
    intro acc
    exact ⟨le_refl acc, Or.inl rfl, by simp [nonemptyBucketFreqs]⟩
  | cons p rest ih =>
    intro acc
    obtain ⟨f0, l0⟩ := p
    rw [umfFold, nonemptyFreqs_cons]
    by_cases h : l0 = []
    · rw [if_pos h, if_pos h]
      exact ih acc
    · rw [if_neg h, if_neg h]
      obtain ⟨h1, h2, h3⟩ := ih (min acc f0)
      refine ⟨le_trans h1 (min_le_left acc f0), ?_, ?_⟩
      · rcases h2 with h2 | h2
        · rcases le_or_lt acc f0 with hle | hlt
          · left
            rw [h2, min_eq_left hle]
          · right
            rw [h2, min_eq_right (le_of_lt hlt)]
            exact List.mem_cons_self _ _
        · exact Or.inr (List.mem_cons_of_mem _ h2)
      · intro f hf
        rcases List.mem_cons.mp hf with heq | hf2
        · rw [heq]
          exact le_trans h1 (min_le_right acc f0)
        · exact h3 f hf2

lemma lfu_updateMinFreq_state (s : LfuCache K V) :
    ((s.updateMinFreq)).buckets = s.buckets ∧ ((s.updateMinFreq)).nodeMap = s.nodeMap ∧
      ((s.updateMinFreq)).maxAvgNum = s.maxAvgNum := ⟨rfl, rfl, rfl⟩

lemma lfu_updateMinFreq_spec (s : LfuCache K V)
    (hb : (s.buckets.map Prod.fst).Nodup)
    (hex : ∃ f, getBucket s.buckets f ≠ [] ∧ f < 127) :
    getBucket s.buckets ((s.updateMinFreq)).minFreq ≠ [] ∧
      (∀ f, getBucket s.buckets f ≠ [] → ((s.updateMinFreq)).minFreq ≤ f) := by
  obtain ⟨f0, hne, hlt⟩ := hex
  have hf0 : f0 ∈ nonemptyBucketFreqs s.buckets := (nonempty_freqs_iff _ hb f0).mpr hne
  obtain ⟨h1, h2, h3⟩ := umfFold_spec s.buckets 127
  have hlt2 : umfFold s.buckets 127 < 127 := lt_of_le_of_lt (h3 f0 hf0) hlt
  have hmem : umfFold s.buckets 127 ∈ nonemptyBucketFreqs s.buckets := by
    rcases h2 with h2 | h2
    · rw [h2] at hlt2
      omega
    · exact h2
  have hne127 : ¬ umfFold s.buckets 127 = 127 := by omega
  have hmf : ((s.updateMinFreq)).minFreq = umfFold s.buckets 127 := by
    unfold LfuCache.updateMinFreq
    simp only [if_neg hne127]
  refine ⟨?_, ?_⟩
  · rw [hmf]
    exact (nonempty_freqs_iff _ hb _).mp hmem
  · intro f hf
    rw [hmf]
    exact h3 f ((nonempty_freqs_iff _ hb f).mpr hf)

lemma lfu_addFreqNum_cases (s : LfuCache K V) :
    ∃ t a : Int,
      s.addFreqNum
          = LfuCache.handleOverMaxAvgNum { s with curTotalNum := t, curAvgNum := a } ∨
        s.addFreqNum = { s with curTotalNum := t, curAvgNum := a } := by
  simp only [LfuCache.addFreqNum]
  split <;> split <;>
    first
      | exact ⟨_, _, Or.inl rfl⟩
      | exact ⟨_, _, Or.inr rfl⟩

lemma lfu_handleOver_shape (s : LfuCache K V) :
    (s.nodeMap = [] ∧ s.handleOverMaxAvgNum = s) ∨
      (s.nodeMap ≠ [] ∧
        s.handleOverMaxAvgNum = (LfuCache.sweepList s.nodeMap s).updateMinFreq) := by
  unfold LfuCache.handleOverMaxAvgNum
  split
  · next h =>
    refine Or.inl ⟨?_, rfl⟩
    simpa using h
  · next h =>
    refine Or.inr ⟨?_, rfl⟩
    intro hc
    exact h (by simp [hc])

end C8MinFreqLemmas

section C8AddFreqSpec

variable {K V : Type} [DecidableEq K] [Inhabited K]

lemma lfu_addFreqNum_spec (s : LfuCache K V)
    (ha : (nodeKeys s.nodeMap).Nodup) (hb : (s.buckets.map Prod.fst).Nodup)
    (hC : BucketAgree s.nodeMap s.buckets) (hfp : ∀ e ∈ s.nodeMap, 1 ≤ e.2.2)
    (hwit : s.nodeMap ≠ [] → ∃ e ∈ s.nodeMap, lfuCompress s.maxAvgNum e.2.2 < 127) :
    ((nodeKeys s.addFreqNum.nodeMap).Nodup ∧
        (s.addFreqNum.buckets.map Prod.fst).Nodup ∧
        BucketAgree s.addFreqNum.nodeMap s.addFreqNum.buckets ∧
        (∀ e ∈ s.addFreqNum.nodeMap, 1 ≤ e.2.2)) ∧
      ((s.addFreqNum.nodeMap = s.nodeMap ∧ s.addFreqNum.buckets = s.buckets ∧
          s.addFreqNum.minFreq = s.minFreq) ∨
        (getBucket s.addFreqNum.buckets s.addFreqNum.minFreq ≠ [] ∧
          (∀ f, getBucket s.addFreqNum.buckets f ≠ [] → s.addFreqNum.minFreq ≤ f) ∧
          ∀ e ∈ s.nodeMap, ∃ v2, lookupNode s.addFreqNum.nodeMap e.1
            = some (v2, lfuCompress s.maxAvgNum e.2.2))) := by
  obtain ⟨t, a, hsh | hsh⟩ := lfu_addFreqNum_cases s
  · rcases lfu_handleOver_shape { s with curTotalNum := t, curAvgNum := a } with
      ⟨hnil, hho⟩ | ⟨hne, hho⟩
    · rw [hsh, hho]
      exact ⟨⟨ha, hb, hC, hfp⟩, Or.inl ⟨rfl, rfl, rfl⟩⟩
    · obtain ⟨sw1, sw2, sw3, sw4, sw5, sw6, sw7, sw8⟩ :=
        lfu_sweepList_spec s.nodeMap { s with curTotalNum := t, curAvgNum := a }
          ha hb hC hfp ha (fun e he => he)
      obtain ⟨e0, he0, he0lt⟩ := hwit hne
      obtain ⟨v2, hv2⟩ := sw8 e0 he0
      have hmem2 : (e0.1, v2, lfuCompress s.maxAvgNum e0.2.2)
          ∈ (LfuCache.sweepList s.nodeMap
              { s with curTotalNum := t, curAvgNum := a }).nodeMap :=
        mem_of_lookupNode _ _ _ _ hv2
      have hbne : getBucket
          (LfuCache.sweepList s.nodeMap
            { s with curTotalNum := t, curAvgNum := a }).buckets
          (lfuCompress s.maxAvgNum e0.2.2) ≠ [] := by
        rw [perm_ne_nil (sw3 (lfuCompress s.maxAvgNum e0.2.2))]
        intro hc
        have := (keysWithFreq_mem _ _ e0.1).mpr ⟨v2, hmem2⟩
        rw [hc] at this
        simp at this
      have hex : ∃ f, getBucket
          (LfuCache.sweepList s.nodeMap
            { s with curTotalNum := t, curAvgNum := a }).buckets f ≠ [] ∧ f < 127 :=
        ⟨lfuCompress s.maxAvgNum e0.2.2, hbne, he0lt⟩
      obtain ⟨hu1, hu2⟩ := lfu_updateMinFreq_spec
        (LfuCache.sweepList s.nodeMap { s with curTotalNum := t, curAvgNum := a })
        sw2 hex
      rw [hsh, hho]
      exact ⟨⟨sw1, sw2, sw3, sw4⟩, Or.inr ⟨hu1, hu2, fun e he => sw8 e he⟩⟩
  · rw [hsh]
    exact ⟨⟨ha, hb, hC, hfp⟩, Or.inl ⟨rfl, rfl, rfl⟩⟩

end C8AddFreqSpec

section C8GetInternalSpec

variable {K V : Type} [DecidableEq K] [Inhabited K]

lemma lfuCompress_lt127 (d x : Int) (h : x - Int.tdiv d 2 < 127) : lfuCompress d x < 127 := by
  unfold lfuCompress
  split <;> omega

lemma minFreq_ge_one_aux (s2 : LfuCache K V) (hC2 : BucketAgree s2.nodeMap s2.buckets)
    (hfp2 : ∀ e ∈ s2.nodeMap, 1 ≤ e.2.2)
    (hbne : getBucket s2.buckets s2.minFreq ≠ []) : 1 ≤ s2.minFreq := by
  have h1 : keysWithFreq s2.nodeMap s2.minFreq ≠ [] := by
    rw [← perm_ne_nil (hC2 s2.minFreq)]
    exact hbne
  obtain ⟨k2, hk2⟩ := List.exists_mem_of_ne_nil _ h1
  obtain ⟨v2, hv2⟩ := (keysWithFreq_mem _ _ _).mp hk2
  exact hfp2 _ hv2

lemma bucket_to_entry (m : List (K × V × Int)) (B : List (Int × List K))
    (hC : BucketAgree m B) (g : Int) (h : getBucket B g ≠ []) :
    ∃ k2 v2, (k2, v2, g) ∈ m := by
  have h1 : keysWithFreq m g ≠ [] := by
    rw [← perm_ne_nil (hC g)]
    exact h
  obtain ⟨k2, hk2⟩ := List.exists_mem_of_ne_nil _ h1
  obtain ⟨v2, hv2⟩ := (keysWithFreq_mem _ _ _).mp hk2
  exact ⟨k2, v2, hv2⟩

lemma m2_freq_cases (m : List (K × V × Int)) (k : K) (v : V) (f f1 : Int)
    (ha : (nodeKeys m).Nodup) (hlk : lookupNode m k = some (v, f)) (f2 : Int) (k2 : K)
    (hk2 : k2 ∈ keysWithFreq (setNodeFreq m k f1) f2) :
    f2 = f1 ∨ (¬ k2 = k ∧ k2 ∈ keysWithFreq m f2) := by
  obtain ⟨v2, hv2⟩ := (keysWithFreq_mem _ _ _).mp hk2
  by_cases hkk : k2 = k
  · left
    have hnd2 : (nodeKeys (setNodeFreq m k f1)).Nodup := by
      rw [nodeKeys_setNodeFreq]
      exact ha
    have h1 := lookupNode_of_mem_nodup _ _ _ _ hnd2 hv2
    rw [hkk, lookupNode_setNodeFreq_self m k v f f1 hlk] at h1
    exact (pair_eq_snd (Option.some.inj h1)).symm
  · right
    exact ⟨hkk, (keysWithFreq_mem _ _ _).mpr
      ⟨v2, mem_setNodeFreq_rev m k f1 k2 v2 f2 hkk hv2⟩⟩

lemma lfu_conclude (s4 : LfuCache K V)
    (ha4 : (nodeKeys s4.nodeMap).Nodup) (hb4 : (s4.buckets.map Prod.fst).Nodup)
    (hC4 : BucketAgree s4.nodeMap s4.buckets) (hfp4 : ∀ e ∈ s4.nodeMap, 1 ≤ e.2.2)
    (hm14 : 1 ≤ s4.minFreq)
    (hmo4 : getBucket s4.buckets s4.minFreq ≠ [] ∧
      ∀ f2, getBucket s4.buckets f2 ≠ [] → s4.minFreq ≤ f2)
    (hwit : s4.nodeMap ≠ [] → ∃ e ∈ s4.nodeMap, lfuCompress s4.maxAvgNum e.2.2 < 127) :
    LfuAux s4.addFreqNum ∧ 1 ≤ s4.addFreqNum.minFreq ∧ MinOkG s4.addFreqNum := by
  obtain ⟨auxPost, hdisj⟩ := lfu_addFreqNum_spec s4 ha4 hb4 hC4 hfp4 hwit
  rcases hdisj with ⟨e1, e2, e3⟩ | ⟨r1, r2, _⟩
  · refine ⟨auxPost, by rw [e3]; exact hm14, ?_⟩
    intro _
    constructor
    · rw [e2, e3]
      exact hmo4.1
    · intro f2 hf2
      rw [e3]
      refine hmo4.2 f2 ?_
      rw [← e2]
      exact hf2
  · exact ⟨auxPost,
      minFreq_ge_one_aux _ auxPost.2.2.1 auxPost.2.2.2 r1, fun _ => ⟨r1, r2⟩⟩

lemma lfu_getInternal_state (s : LfuCache K V) (k : K) (v : V) (f : Int) :
    (s.getInternal k v f).2
      = LfuCache.addFreqNum
          (if f = s.minFreq ∧
              getBucket
                (setBucket
                  (setBucket s.buckets f (eraseElem (getBucket s.buckets f) k)) (f + 1)
                  (getBucket (setBucket s.buckets f (eraseElem (getBucket s.buckets f) k))
                    (f + 1) ++ [k])) f = [] then
            { s with
                nodeMap := setNodeFreq s.nodeMap k (f + 1)
                buckets :=
                  setBucket
                    (setBucket s.buckets f (eraseElem (getBucket s.buckets f) k)) (f + 1)
                    (getBucket (setBucket s.buckets f (eraseElem (getBucket s.buckets f) k))
                      (f + 1) ++ [k])
                minFreq := s.minFreq + 1 }
          else
            { s with
                nodeMap := setNodeFreq s.nodeMap k (f + 1)
                buckets :=
                  setBucket
                    (setBucket s.buckets f (eraseElem (getBucket s.buckets f) k)) (f + 1)
                    (getBucket (setBucket s.buckets f (eraseElem (getBucket s.buckets f) k))
                      (f + 1) ++ [k]) }) := rfl

lemma lfu_getInternal_spec (s : LfuCache K V) (k : K) (v : V) (f : Int)
    (ha : (nodeKeys s.nodeMap).Nodup) (hb : (s.buckets.map Prod.fst).Nodup)
    (hC : BucketAgree s.nodeMap s.buckets) (hfp : ∀ e ∈ s.nodeMap, 1 ≤ e.2.2)
    (hm1 : 1 ≤ s.minFreq) (hmo : MinOkG s)
    (hs127 : s.minFreq + 1 - Int.tdiv s.maxAvgNum 2 < 127)
    (hlk : lookupNode s.nodeMap k = some (v, f)) :
    LfuAux (s.getInternal k v f).2 ∧ 1 ≤ ((s.getInternal k v f).2).minFreq ∧
      MinOkG (s.getInternal k v f).2 := by
  have hkm : (k, v, f) ∈ s.nodeMap := mem_of_lookupNode _ _ _ _ hlk
  have hmne : s.nodeMap ≠ [] := by
    intro hc
    rw [hc] at hkm
    simp at hkm
  have hff : 1 ≤ f := hfp _ hkm
  have hkwf : k ∈ keysWithFreq s.nodeMap f := (keysWithFreq_mem _ _ _).mpr ⟨v, hkm⟩
  have hBfne : getBucket s.buckets f ≠ [] := by
    rw [perm_ne_nil (hC f)]
    intro hc
    rw [hc] at hkwf
    simp at hkwf
  have hMF : s.minFreq ≤ f := (hmo hmne).2 f hBfne
  obtain ⟨ha3, hb3, hC3⟩ := move_aux s.nodeMap s.buckets k v f (f + 1) ha hb hC hlk
  have hfp3 : ∀ e ∈ setNodeFreq s.nodeMap k (f + 1), 1 ≤ e.2.2 := by
    intro e he
    rcases mem_setNodeFreq_cases s.nodeMap k (f + 1) e he with h2 | h2
    · exact hfp e h2
    · omega
  have hm2ne : setNodeFreq s.nodeMap k (f + 1) ≠ [] := by
    intro hc
    apply hmne
    have h2 := nodeKeys_setNodeFreq s.nodeMap k (f + 1)
    rw [hc] at h2
    unfold nodeKeys at h2
    exact List.map_eq_nil.mp h2.symm
  rw [lfu_getInternal_state]
  set B3 := setBucket (setBucket s.buckets f (eraseElem (getBucket s.buckets f) k)) (f + 1)
      (getBucket (setBucket s.buckets f (eraseElem (getBucket s.buckets f) k))
        (f + 1) ++ [k]) with hB3
  have hB3new : getBucket B3 (f + 1) ≠ [] := by
    rw [hB3, getBucket_setBucket_self]
    simp
  by_cases hcond : f = s.minFreq ∧ getBucket B3 f = []
  · rw [if_pos hcond]
    obtain ⟨hfeq, hempty⟩ := hcond
    have hall : ∀ f2, getBucket B3 f2 ≠ [] → s.minFreq + 1 ≤ f2 := by
      intro f2 hf2
      have hkwf2 : keysWithFreq (setNodeFreq s.nodeMap k (f + 1)) f2 ≠ [] := by
        rw [← perm_ne_nil (hC3 f2)]
        exact hf2
      obtain ⟨k2, hk2⟩ := List.exists_mem_of_ne_nil _ hkwf2
      rcases m2_freq_cases s.nodeMap k v f (f + 1) ha hlk f2 k2 hk2 with h2 | ⟨h2a, h2b⟩
      · omega
      · have hB2 : getBucket s.buckets f2 ≠ [] := by
          rw [perm_ne_nil (hC f2)]
          intro hc
          rw [hc] at h2b
          simp at h2b
        have h3 : s.minFreq ≤ f2 := (hmo hmne).2 f2 hB2
        have h4 : ¬ f2 = f := by
          intro hc
          have h5 := hC3 f
          rw [hempty] at h5
          have h6 : keysWithFreq (setNodeFreq s.nodeMap k (f + 1)) f = [] :=
            (h5.symm).eq_nil
          rw [hc] at hk2
          rw [h6] at hk2
          simp at hk2
        omega
    refine lfu_conclude _ ha3 hb3 hC3 hfp3 (by show (1:Int) ≤ s.minFreq + 1; omega) ⟨?_, hall⟩ ?_
    · show getBucket B3 (s.minFreq + 1) ≠ []
      rw [← hfeq]
      exact hB3new
    · intro _
      obtain ⟨k3, v3, hk3⟩ := bucket_to_entry _ B3 hC3 (s.minFreq + 1) (by
        rw [← hfeq]
        exact hB3new)
      exact ⟨(k3, v3, s.minFreq + 1), hk3, lfuCompress_lt127 _ _ (by
        show s.minFreq + 1 - Int.tdiv s.maxAvgNum 2 < 127
        omega)⟩
  · rw [if_neg hcond]
    have hminne : getBucket B3 s.minFreq ≠ [] := by
      by_cases hfm : f = s.minFreq
      · have h2 : ¬ getBucket B3 f = [] := fun hc => hcond ⟨hfm, hc⟩
        rw [← hfm]
        exact h2
      · obtain ⟨k3, v3, hk3⟩ := bucket_to_entry _ _ hC s.minFreq (hmo hmne).1
        have hk3k : ¬ k3 = k := by
          intro hc
          rw [hc] at hk3
          have h2 := lookupNode_of_mem_nodup _ _ _ _ ha hk3
          rw [hlk] at h2
          exact hfm (pair_eq_snd (Option.some.inj h2))
        have hmem3 : (k3, v3, s.minFreq) ∈ setNodeFreq s.nodeMap k (f + 1) :=
          mem_setNodeFreq_other s.nodeMap k (f + 1) k3 v3 s.minFreq hk3k hk3
        rw [perm_ne_nil (hC3 s.minFreq)]
        intro hc
        have h2 := (keysWithFreq_mem (setNodeFreq s.nodeMap k (f + 1)) s.minFreq k3).mpr
          ⟨v3, hmem3⟩
        rw [hc] at h2
        simp at h2
    have hall : ∀ f2, getBucket B3 f2 ≠ [] → s.minFreq ≤ f2 := by
      intro f2 hf2
      have hkwf2 : keysWithFreq (setNodeFreq s.nodeMap k (f + 1)) f2 ≠ [] := by
        rw [← perm_ne_nil (hC3 f2)]
        exact hf2
      obtain ⟨k2, hk2⟩ := List.exists_mem_of_ne_nil _ hkwf2
      rcases m2_freq_cases s.nodeMap k v f (f + 1) ha hlk f2 k2 hk2 with h2 | ⟨h2a, h2b⟩
      · omega
      · have hB2 : getBucket s.buckets f2 ≠ [] := by
          rw [perm_ne_nil (hC f2)]
          intro hc
          rw [hc] at h2b
          simp at h2b
        exact (hmo hmne).2 f2 hB2
    refine lfu_conclude _ ha3 hb3 hC3 hfp3 hm1 ⟨hminne, hall⟩ ?_
    intro _
    obtain ⟨k3, v3, hk3⟩ := bucket_to_entry _ B3 hC3 s.minFreq hminne
    exact ⟨(k3, v3, s.minFreq), hk3, lfuCompress_lt127 _ _ (by
      show s.minFreq - Int.tdiv s.maxAvgNum 2 < 127
      omega)⟩

end C8GetInternalSpec

section C8PutSpec

variable {K V : Type} [DecidableEq K] [Inhabited K]

lemma mem_eraseNode_subset {C : Type} (m : List (K × V × C)) (k : K) (e : K × V × C)
    (h : e ∈ eraseNode m k) : e ∈ m := by
  induction m with
  | nil => simpa [eraseNode] using h
  | cons e2 rest ih =>
    obtain ⟨k2, v2, f2⟩ := e2
    by_cases hk : k2 = k
    · rw [eraseNode, if_pos hk] at h
      exact List.mem_cons_of_mem _ h
    · rw [eraseNode, if_neg hk] at h
      rcases List.mem_cons.mp h with heq | h2
      · exact heq ▸ List.mem_cons_self _ _
      · exact List.mem_cons_of_mem _ (ih h2)

lemma mem_setNodeValue_freq {C : Type} (m : List (K × V × C)) (k : K) (v : V)
    (e : K × V × C) (he : e ∈ setNodeValue m k v) : ∃ v1, (e.1, v1, e.2.2) ∈ m := by
  induction m with
  | nil => simpa [setNodeValue] using he
  | cons e2 rest ih =>
    obtain ⟨k2, v2, f2⟩ := e2
    by_cases hk : k2 = k
    · rw [setNodeValue, if_pos hk] at he
      rcases List.mem_cons.mp he with heq | h2
      · exact ⟨v2, by rw [heq]; exact List.mem_cons_self _ _⟩
      · exact ⟨e.2.1, List.mem_cons_of_mem _ h2⟩
    · rw [setNodeValue, if_neg hk] at he
      rcases List.mem_cons.mp he with heq | h2
      · exact ⟨v2, by rw [heq]; exact List.mem_cons_self _ _⟩
      · obtain ⟨v1, hm⟩ := ih h2
        exact ⟨v1, List.mem_cons_of_mem _ hm⟩

lemma lfu_kickOut_spec (s : LfuCache K V)
    (ha : (nodeKeys s.nodeMap).Nodup) (hb : (s.buckets.map Prod.fst).Nodup)
    (hC : BucketAgree s.nodeMap s.buckets) (hfp : ∀ e ∈ s.nodeMap, 1 ≤ e.2.2)
    (hmo : MinOkG s) :
    (nodeKeys s.kickOut.nodeMap).Nodup ∧
      (s.kickOut.buckets.map Prod.fst).Nodup ∧
      BucketAgree s.kickOut.nodeMap s.kickOut.buckets ∧
      (∀ e ∈ s.kickOut.nodeMap, 1 ≤ e.2.2) ∧
      s.kickOut.minFreq = s.minFreq ∧
      s.kickOut.maxAvgNum = s.maxAvgNum ∧
      ∀ k2, lookupNode s.nodeMap k2 = none → lookupNode s.kickOut.nodeMap k2 = none := by
  by_cases hne : s.nodeMap = []
  · have hB : getBucket s.buckets s.minFreq = [] := by
      have h2 := hC s.minFreq
      rw [hne] at h2
      exact h2.eq_nil
    have hed : eraseNode s.nodeMap (default : K) = s.nodeMap := by
      rw [hne]
      rfl
    unfold LfuCache.kickOut
    rw [hB]
    refine ⟨?_, hb, ?_, ?_, rfl, rfl, ?_⟩
    · show (nodeKeys (eraseNode s.nodeMap (default : K))).Nodup
      rw [hed]
      exact ha
    · show BucketAgree (eraseNode s.nodeMap (default : K)) s.buckets
      rw [hed]
      exact hC
    · intro e he
      have he2 : e ∈ eraseNode s.nodeMap (default : K) := he
      rw [hed] at he2
      exact hfp e he2
    · intro k2 h2
      show lookupNode (eraseNode s.nodeMap (default : K)) k2 = none
      rw [hed]
      exact h2
  · obtain ⟨hbne, hall⟩ := hmo hne
    rcases hcase : getBucket s.buckets s.minFreq with _ | ⟨firstKey, rest2⟩
    · exact absurd hcase hbne
    · have hkmem : firstKey ∈ keysWithFreq s.nodeMap s.minFreq :=
        (hC s.minFreq).mem_iff.mp (by rw [hcase]; exact List.mem_cons_self _ _)
      obtain ⟨v0, hv0⟩ := (keysWithFreq_mem _ _ _).mp hkmem
      have hlk : lookupNode s.nodeMap firstKey = some (v0, s.minFreq) :=
        lookupNode_of_mem_nodup _ _ _ _ ha hv0
      obtain ⟨he1, he2, he3⟩ := erase_aux s.nodeMap s.buckets firstKey v0 s.minFreq ha hb hC hlk
      unfold LfuCache.kickOut
      rw [hcase]
      simp only [hlk]
      refine ⟨?_, ?_, ?_, ?_, rfl, rfl, ?_⟩
      · exact he1
      · exact he2
      · exact he3
      · intro e he
        have he4 : e ∈ eraseNode s.nodeMap firstKey := he
        exact hfp e (mem_eraseNode_subset _ _ _ he4)
      · intro k2 h2
        show lookupNode (eraseNode s.nodeMap firstKey) k2 = none
        rw [lookupNode_eq_none_iff] at h2 ⊢
        intro hc
        exact h2 ((nodeKeys_eraseNode_sublist s.nodeMap firstKey).subset hc)

lemma lfu_putInternal_core (s1 s5 : LfuCache K V) (key : K) (v : V)
    (hs5 : s5
      = { LfuCache.addFreqNum
            { s1 with
                nodeMap := s1.nodeMap ++ [(key, v, 1)]
                buckets := setBucket s1.buckets 1 (getBucket s1.buckets 1 ++ [key]) } with
          minFreq :=
            min (LfuCache.addFreqNum
              { s1 with
                  nodeMap := s1.nodeMap ++ [(key, v, 1)]
                  buckets :=
                    setBucket s1.buckets 1 (getBucket s1.buckets 1 ++ [key]) }).minFreq 1 })
    (ha1 : (nodeKeys s1.nodeMap).Nodup) (hb1 : (s1.buckets.map Prod.fst).Nodup)
    (hC1 : BucketAgree s1.nodeMap s1.buckets) (hfp1 : ∀ e ∈ s1.nodeMap, 1 ≤ e.2.2)
    (hm11 : 1 ≤ s1.minFreq) (hd1 : 0 ≤ s1.maxAvgNum)
    (habs1 : lookupNode s1.nodeMap key = none) :
    LfuAux s5 ∧ 1 ≤ s5.minFreq ∧ MinOkG s5 := by
  subst hs5
  set s3 : LfuCache K V :=
    { s1 with
        nodeMap := s1.nodeMap ++ [(key, v, 1)]
        buckets := setBucket s1.buckets 1 (getBucket s1.buckets 1 ++ [key]) } with hs3
  obtain ⟨hi1, hi2, hi3⟩ := insert_aux s1.nodeMap s1.buckets key v ha1 hb1 hC1 habs1
  have hfp3 : ∀ e ∈ s3.nodeMap, 1 ≤ e.2.2 := by
    intro e he
    have he2 : e ∈ s1.nodeMap ++ [(key, v, 1)] := he
    rcases List.mem_append.mp he2 with h2 | h2
    · exact hfp1 e h2
    · simp only [List.mem_singleton] at h2
      rw [h2]
  have hkey3 : ((key, v, 1) : K × V × Int) ∈ s3.nodeMap := by
    show (key, v, 1) ∈ s1.nodeMap ++ [(key, v, 1)]
    exact List.mem_append_right _ (List.mem_singleton.mpr rfl)
  have htd : 0 ≤ Int.tdiv s1.maxAvgNum 2 := Int.tdiv_nonneg hd1 (by norm_num)
  have hwit : s3.nodeMap ≠ [] →
      ∃ e ∈ s3.nodeMap, lfuCompress s3.maxAvgNum e.2.2 < 127 := by
    intro _
    refine ⟨(key, v, 1), hkey3, lfuCompress_lt127 _ _ ?_⟩
    show (1 : Int) - Int.tdiv s1.maxAvgNum 2 < 127
    omega
  obtain ⟨aux4, hdisj⟩ := lfu_addFreqNum_spec s3 hi1 hi2 hi3 hfp3 hwit
  set s4 : LfuCache K V := LfuCache.addFreqNum s3 with hs4
  have hm4 : 1 ≤ s4.minFreq := by
    rcases hdisj with ⟨e1, e2, e3⟩ | ⟨r1, r2, r3⟩
    · rw [e3]
      show 1 ≤ s1.minFreq
      exact hm11
    · exact minFreq_ge_one_aux s4 aux4.2.2.1 aux4.2.2.2 r1
  refine ⟨aux4, ?_, ?_⟩
  · show 1 ≤ min s4.minFreq 1
    exact le_min hm4 le_rfl
  · intro hne5
    show getBucket s4.buckets (min s4.minFreq 1) ≠ [] ∧
      ∀ f, getBucket s4.buckets f ≠ [] → min s4.minFreq 1 ≤ f
    have hmin1 : min s4.minFreq 1 = 1 := min_eq_right hm4
    rcases hdisj with ⟨e1, e2, e3⟩ | ⟨r1, r2, r3⟩
    · constructor
      · rw [hmin1, e2]
        show getBucket (setBucket s1.buckets 1 (getBucket s1.buckets 1 ++ [key])) 1 ≠ []
        rw [getBucket_setBucket_self]
        simp
      · intro f hf
        rw [hmin1]
        rw [e2] at hf
        obtain ⟨k2, v2, hmem⟩ := bucket_to_entry s3.nodeMap s3.buckets hi3 f hf
        exact hfp3 _ hmem
    · obtain ⟨v2, hv2raw⟩ := r3 (key, v, 1) hkey3
      have hv2 : lookupNode s4.nodeMap key = some (v2, 1) := by
        have hcomp : lfuCompress s3.maxAvgNum (1 : Int) = 1 := by
          show lfuCompress s1.maxAvgNum 1 = 1
          unfold lfuCompress
          split <;> omega
        rw [← hcomp]
        exact hv2raw
      have hmem4 : (key, v2, (1 : Int)) ∈ s4.nodeMap := mem_of_lookupNode _ _ _ _ hv2
      have hb41 : getBucket s4.buckets 1 ≠ [] := by
        rw [perm_ne_nil (aux4.2.2.1 1)]
        intro hc
        have h3 := (keysWithFreq_mem s4.nodeMap 1 key).mpr ⟨v2, hmem4⟩
        rw [hc] at h3
        simp at h3
      have heq1 : s4.minFreq = 1 := le_antisymm (r2 1 hb41) hm4
      constructor
      · rw [hmin1, ← heq1]
        exact r1
      · intro f hf
        rw [hmin1, ← heq1]
        exact r2 f hf

lemma lfu_putInternal_spec (s : LfuCache K V) (key : K) (v : V)
    (ha : (nodeKeys s.nodeMap).Nodup) (hb : (s.buckets.map Prod.fst).Nodup)
    (hC : BucketAgree s.nodeMap s.buckets) (hfp : ∀ e ∈ s.nodeMap, 1 ≤ e.2.2)
    (hm1 : 1 ≤ s.minFreq) (hmo : MinOkG s) (hd : 0 ≤ s.maxAvgNum)
    (habs : lookupNode s.nodeMap key = none) :
    LfuAux (s.putInternal key v) ∧ 1 ≤ (s.putInternal key v).minFreq ∧
      MinOkG (s.putInternal key v) := by
  by_cases hcap : s.nodeMap.length = usize s.capacity
  · obtain ⟨hk1, hk2, hk3, hk4, hk5, hk6, hk7⟩ := lfu_kickOut_spec s ha hb hC hfp hmo
    refine lfu_putInternal_core s.kickOut (s.putInternal key v) key v ?_ hk1 hk2 hk3 hk4
      (by rw [hk5]; exact hm1) (by rw [hk6]; exact hd) (hk7 key habs)
    unfold LfuCache.putInternal
    rw [if_pos hcap]
    rfl
  · refine lfu_putInternal_core s (s.putInternal key v) key v ?_ ha hb hC hfp hm1 hd habs
    unfold LfuCache.putInternal
    rw [if_neg hcap]
    rfl

lemma lfu_put_inv (s : LfuCache K V) (key : K) (v : V) (hinv : s.inv)
    (hd : 0 ≤ s.maxAvgNum)
    (hs127 : s.minFreq + 1 - Int.tdiv s.maxAvgNum 2 < 127) :
    (s.put key v).inv := by
  have ha := hinv.1
  have hb := hinv.2.1
  have hC := bucketAgree_of_inv s hinv
  have hfp := hinv.2.2.2.2.1
  have hm1 := hinv.2.2.2.2.2.1
  have hmo := minOkG_of_inv s hinv
  unfold LfuCache.put
  by_cases hcap : s.capacity = 0
  · rw [if_pos hcap]
    exact hinv
  · rw [if_neg hcap]
    cases hlk : lookupNode s.nodeMap key with
    | none =>
      obtain ⟨p1, p2, p3⟩ := lfu_putInternal_spec s key v ha hb hC hfp hm1 hmo hd hlk
      exact inv_of_parts _ p1 p2 p3
    | some vf =>
      obtain ⟨v0, f⟩ := vf
      have hsne : s.nodeMap ≠ [] := by
        intro hc
        rw [hc] at hlk
        simp [lookupNode] at hlk
      have ha2 : (nodeKeys (setNodeValue s.nodeMap key v)).Nodup := by
        rw [nodeKeys_setNodeValue]
        exact ha
      have hC2 : BucketAgree (setNodeValue s.nodeMap key v) s.buckets := by
        intro f2
        rw [keysWithFreq_setNodeValue]
        exact hC f2
      have hfp2 : ∀ e ∈ setNodeValue s.nodeMap key v, 1 ≤ e.2.2 := by
        intro e he
        obtain ⟨v1, hm⟩ := mem_setNodeValue_freq s.nodeMap key v e he
        exact hfp (e.1, v1, e.2.2) hm
      have hmo2 : MinOkG { s with nodeMap := setNodeValue s.nodeMap key v } := by
        intro _
        exact hmo hsne
      have hlk2 : lookupNode (setNodeValue s.nodeMap key v) key = some (v, f) :=
        lookupNode_setNodeValue_self s.nodeMap key v v0 f hlk
      obtain ⟨p1, p2, p3⟩ :=
        lfu_getInternal_spec { s with nodeMap := setNodeValue s.nodeMap key v }
          key v f ha2 hb hC2 hfp2 hm1 hmo2 hs127 hlk2
      exact inv_of_parts _ p1 p2 p3

lemma lfu_get_inv (s : LfuCache K V) (key : K) (hinv : s.inv)
    (hd : 0 ≤ s.maxAvgNum)
    (hs127 : s.minFreq + 1 - Int.tdiv s.maxAvgNum 2 < 127) :
    ((s.get key).2).inv := by
  unfold LfuCache.get
  cases hlk : lookupNode s.nodeMap key with
  | none => exact hinv
  | some vf =>
    obtain ⟨v, f⟩ := vf
    obtain ⟨p1, p2, p3⟩ :=
      lfu_getInternal_spec s key v f hinv.1 hinv.2.1 (bucketAgree_of_inv s hinv)
        hinv.2.2.2.2.1 hinv.2.2.2.2.2.1 (minOkG_of_inv s hinv) hs127 hlk
    exact inv_of_parts _ p1 p2 p3

end C8PutSpec

/-- C8: corrected form.  The source recomputes `minFreq_` with an
`INT8_MAX` sentinel, so P4 survives a public operation only while the
relevant frequencies stay below 127 (see the counterexample); under that
guard (`minFreq_ + 1 - maxAvgNum_/2 < 127`, which also covers the aging
sweep) and a non-negative `maxAvgNum_`, every `put` and every `get`
preserves the full LFU invariant, and in particular afterwards `minFreq_`
is the least frequency with a non-empty bucket whenever the cache is
non-empty. -/
theorem c8_amended_theorem {K V : Type} [DecidableEq K] [Inhabited K]
    (s : LfuCache K V) (key : K) (v : V) (hinv : s.inv) (hd : 0 ≤ s.maxAvgNum)
    (hs127 : s.minFreq + 1 - Int.tdiv s.maxAvgNum 2 < 127) :
    ((s.put key v).inv ∧ (s.put key v).minFreqOk) ∧
      (((s.get key).2).inv ∧ ((s.get key).2).minFreqOk) :=
  ⟨⟨lfu_put_inv s key v hinv hd hs127,
      (lfu_put_inv s key v hinv hd hs127).2.2.2.2.2.2⟩,
    ⟨lfu_get_inv s key hinv hd hs127,
      (lfu_get_inv s key hinv hd hs127).2.2.2.2.2.2⟩⟩

/-- Witness for C8's amended theorem: the one-entry LFU cache obtained by
`put(1,5)` on `LfuCache(2, 10)` satisfies the hypotheses, and both
`put(2,6)` and `get(2)` preserve the invariant including P4. -/
theorem c8_amended_witness :
    (((LfuCache.init 2 10 : LfuCache Nat Nat).put 1 5).inv ∧
        (0 : Int) ≤ ((LfuCache.init 2 10 : LfuCache Nat Nat).put 1 5).maxAvgNum ∧
        ((LfuCache.init 2 10 : LfuCache Nat Nat).put 1 5).minFreq + 1
            - Int.tdiv ((LfuCache.init 2 10 : LfuCache Nat Nat).put 1 5).maxAvgNum 2
          < 127) ∧
      (((((LfuCache.init 2 10 : LfuCache Nat Nat).put 1 5).put 2 6).inv ∧
          (((LfuCache.init 2 10 : LfuCache Nat Nat).put 1 5).put 2 6).minFreqOk) ∧
        (((((LfuCache.init 2 10 : LfuCache Nat Nat).put 1 5).get 2).2).inv ∧
          ((((LfuCache.init 2 10 : LfuCache Nat Nat).put 1 5).get 2).2).minFreqOk)) :=
  ⟨⟨by decide, by decide, by decide⟩,
    c8_amended_theorem ((LfuCache.init 2 10 : LfuCache Nat Nat).put 1 5) 2 6
      (by decide) (by decide) (by decide)⟩
